import Mathlib

/-!
# GameVault backend — reconciliation engine, formalised

A shallow embedding of `src/services/files.service.ts` (filename parser,
reconciliation engine, integrity check, filesystem lister) together with a
model of the record store it drives.  Strings are embedded as `List Char`
and every JavaScript regular expression of the source is translated to an
explicit leftmost-match scanner over character lists.

The `GamesService` record store itself is not part of the source slice;
its operations are modelled from the specification (each such definition
carries a doc comment starting with `Modelled from the spec:`).
-/

set_option maxHeartbeats 1000000

namespace GameVault

/-- Character strings, embedded as lists of characters. -/
abbrev Str := List Char

/-- Path separators recognised by the character class `[\\/]` of the
title regex in `regexExtractTitle`. -/
def isSep (c : Char) : Bool := c == '/' || c == '\\'

/-- JavaScript line terminators: the wildcard `.` of a JavaScript regular
expression (no `s` flag) matches any character except these. -/
def isLineTerm (c : Char) : Bool :=
  c == '\n' || c == '\r' || c == ' ' || c == ' '

/-- JavaScript whitespace (the set removed by `String.prototype.trim`):
ECMAScript WhiteSpace plus LineTerminator code points. -/
def isJsSpace (c : Char) : Bool :=
  c == ' ' || c == '\t' || c == '\u000b' || c == '\u000c' ||
  c == ' ' || c == '﻿' || c == '\n' || c == '\r' ||
  c == ' ' || c == ' ' || c == ' ' || c == ' ' ||
  c == ' ' || c == ' ' || c == ' ' || c == ' ' ||
  c == ' ' || c == ' ' || c == ' ' || c == ' ' ||
  c == ' ' || c == ' ' || c == ' ' || c == ' ' ||
  c == '　'

/-- The match of `/^.*[\\/]/` (greedy, `.` excludes line terminators):
if it matches, returns the suffix after the last separator that is
reachable from the start of the string without crossing a line
terminator; `none` when the regex does not match. -/
def stripDirAux : Str → Option Str
  | [] => none
  | c :: rest =>
    if isLineTerm c then none
    else if isSep c then some ((stripDirAux rest).getD rest)
    else stripDirAux rest

/-- `fileName.replace(/^.*[\\/]/, "")` — drop the directory part. -/
def removeDir (s : Str) : Str := (stripDirAux s).getD s

/-- The prefix of `s` that precedes its last `'.'`, or `none` when `s`
contains no dot.  This is what survives `replace(/\.([^.]*)$/, "")`. -/
def stripExtAux : Str → Option Str
  | [] => none
  | c :: rest =>
    match stripExtAux rest with
    | some r => some (c :: r)
    | none => if c == '.' then some [] else none

/-- `fileName.replace(/\.([^.]*)$/, "")` — drop the extension: remove the
last dot and everything after it (the regex matches only when a dot is
present, and `[^.]*$` pins it to the final dot). -/
def removeExt (s : Str) : Str := (stripExtAux s).getD s

/-- Split at the first `')'`: returns the characters before it and the
suffix after it, or `none` when the string has no `')'`. -/
def takeBody : Str → Option (Str × Str)
  | [] => none
  | c :: rest =>
    if c == ')' then some ([], rest)
    else (takeBody rest).map (fun p => (c :: p.1, p.2))

/-- One pass of `replaceAll(/\([^)]*\)/g, "")`, fuelled for structural
recursion (the fuel is always at least the length of the remaining
input, so the `0` case is unreachable from `removeParens`). -/
def removeParensF : Nat → Str → Str
  | _, [] => []
  | 0, s => s
  | fuel + 1, c :: rest =>
    if c == '(' then
      match takeBody rest with
      | some p => removeParensF fuel p.2
      | none => c :: removeParensF fuel rest
    else c :: removeParensF fuel rest

/-- `replaceAll(/\([^)]*\)/g, "")` — remove every parenthesized group;
each `'('` is closed by the first following `')'` (`[^)]*` cannot cross
one), and an unclosed `'('` is kept verbatim. -/
def removeParens (s : Str) : Str := removeParensF s.length s

/-- `String.prototype.trim` — strip leading and trailing JavaScript
whitespace. -/
def jsTrim (s : Str) : Str :=
  ((s.dropWhile isJsSpace).reverse.dropWhile isJsSpace).reverse

/-- `regexExtractTitle` of `files.service.ts`: drop the directory, drop
the extension, remove every parenthesized group, trim. -/
def regexExtractTitle (fileName : Str) : Str :=
  jsTrim (removeParens (removeExt (removeDir fileName)))

/-- Leftmost-match scanner: apply the per-position matcher `step` to
every non-empty suffix of the string, left to right, and return the
first hit.  This is the position-scanning semantics of
`RegExp.prototype.exec`. -/
def scanFirst (step : Str → Option α) : Str → Option α
  | [] => none
  | s@(_ :: t) =>
    match step s with
    | some a => some a
    | none => scanFirst step t

/-- Anchored matcher for `\((v[^)]+)\)`: the suffix must start with
`'('`, `'v'`, then the greedy `[^)]+` runs to the first `')'`, which
must not come immediately after the `'v'`.  Returns the capture. -/
def versionStep : Str → Option Str
  | c0 :: c1 :: rest =>
    if c0 == '(' && c1 == 'v' then
      match takeBody rest with
      | some ([], _) => none
      | some (b, _) => some ('v' :: b)
      | none => none
    else none
  | _ => none

/-- `regexExtractVersion`: `RegExp(/\((v[^)]+)\)/).exec(fileName)?.[1]`. -/
def regexExtractVersion (fileName : Str) : Option Str :=
  scanFirst versionStep fileName

/-- Anchored matcher for `\((\d{4})\)`: the suffix must start with a
`'('`, exactly four digits and a `')'`.  Returns the four digits. -/
def yearStep : Str → Option Str
  | c0 :: c1 :: c2 :: c3 :: c4 :: c5 :: _ =>
    if c0 == '(' && c1.isDigit && c2.isDigit && c3.isDigit && c4.isDigit && c5 == ')'
    then some [c1, c2, c3, c4] else none
  | _ => none

/-- `regexExtractReleaseYear`: `RegExp(/\((\d{4})\)/).exec(fileName)[1]`.
In the source the missing-match case dereferences `null` and throws; the
embedding returns `none` there, and `parseGame` below turns it into the
error value that `indexFiles` catches. -/
def regexExtractReleaseYear (fileName : Str) : Option Str :=
  scanFirst yearStep fileName

/-- Anchored matcher for the literal `\(EA\)`. -/
def eaStep : Str → Option Unit
  | c0 :: c1 :: c2 :: c3 :: _ =>
    if c0 == '(' && c1 == 'E' && c2 == 'A' && c3 == ')' then some () else none
  | _ => none

/-- `regexExtractEarlyAccessFlag`: `/\(EA\)/.test(fileName)`. -/
def regexExtractEarlyAccessFlag (fileName : Str) : Bool :=
  (scanFirst eaStep fileName).isSome

/-- A calendar date; `new Date("yyyy")` on a four-digit string yields the
start of that year (January 1st). -/
structure GDate where
  year : Nat
  month : Nat
  day : Nat
deriving DecidableEq, Repr

/-- Digit string to number, most significant first. -/
def digitsToNat (s : Str) : Nat :=
  s.foldl (fun n c => 10 * n + (c.toNat - 48)) 0

/-- `new Date(yearDigits)` for the four-digit capture of the release
year regex: the start of that year. -/
def yearToDate (y : Str) : GDate :=
  { year := digitsToNat y, month := 1, day := 1 }

example : regexExtractTitle ("Grand Theft Auto V (2013) (v1.0.0) (EA).zip".toList)
    = ("Grand Theft Auto V".toList) := by decide

example : regexExtractVersion ("Grand Theft Auto V (2013) (v1.0.0) (EA).zip".toList)
    = some ("v1.0.0".toList) := by decide

example : regexExtractReleaseYear ("Grand Theft Auto V (2013) (v1.0.0) (EA).zip".toList)
    = some ("2013".toList) := by decide

example : regexExtractEarlyAccessFlag ("Grand Theft Auto V (2013) (v1.0.0) (EA).zip".toList)
    = true := by decide

example : regexExtractReleaseYear ("Portal.zip".toList) = none := by decide

example : regexExtractTitle ("(2013).zip".toList) = [] := by decide

example : regexExtractTitle ("games/Portal (2007)/Portal.zip".toList)
    = ("Portal".toList) := by decide

/-! ## Data model

`Game` entity (`game.entity.ts`): the six fields written by the indexer,
the soft-delete marker of the abstract entity, and the remaining columns
and relations, which the indexer must never touch.  Relations are
represented by the ids of the related rows, images by an optional image
id. -/

/-- A persisted `Game` row. -/
structure GameRec where
  id : Nat
  file_path : Str
  title : Str
  size : Nat
  release_date : GDate
  version : Option Str
  early_access : Bool
  /-- The soft-delete marker (`deleted_at`-style: `true` = marked). -/
  deleted : Bool
  rawg_id : Option Nat
  rawg_title : Option Str
  rawg_release_date : Option GDate
  cache_date : Option GDate
  description : Option Str
  box_image : Option Nat
  background_image : Option Nat
  website_url : Option Str
  metacritic_rating : Option Nat
  average_playtime : Option Nat
  progresses : List Nat
  publishers : List Nat
  developers : List Nat
  stores : List Nat
  tags : List Nat
  genres : List Nat
deriving DecidableEq, Repr

/-- The candidate built by the `indexFiles` loop (`new Game()` with only
the six filename-derived fields assigned). -/
structure CandidateGame where
  file_path : Str
  title : Str
  size : Nat
  release_date : GDate
  version : Option Str
  early_access : Bool
deriving DecidableEq, Repr

/-- A file-system descriptor (`IGameVaultFile`): relative name and size. -/
structure FileDesc where
  name : Str
  size : Nat
deriving DecidableEq, Repr

/-- `GameExistance` enum (`game-existance.enum.ts`). -/
inductive GameExistance where
  | EXISTS
  | DOES_NOT_EXIST
  | EXISTS_BUT_DELETED
  | EXISTS_BUT_ALTERED
deriving DecidableEq, Repr

/-- The error signal a failed filename parse produces inside
`indexFiles` (in the source a missing release year throws on the
`null[1]` dereference and is caught by the per-file handler). -/
inductive ParseError where
  | noReleaseYear
deriving DecidableEq, Repr

instance {ε α : Type} [DecidableEq ε] [DecidableEq α] : DecidableEq (Except ε α) :=
  fun a b =>
    match a, b with
    | Except.error e, Except.error e' =>
      if h : e = e' then isTrue (by rw [h]) else isFalse (by
        intro hcontr
        injection hcontr with hcontr
        exact h hcontr)
    | Except.ok x, Except.ok x' =>
      if h : x = x' then isTrue (by rw [h]) else isFalse (by
        intro hcontr
        injection hcontr with hcontr
        exact h hcontr)
    | Except.error _, Except.ok _ => isFalse (by intro hcontr; injection hcontr)
    | Except.ok _, Except.error _ => isFalse (by intro hcontr; injection hcontr)

/-- The per-file metadata extraction of the `indexFiles` loop body:
build the candidate from the six extractors, failing when the release
year is absent. -/
def parseGame (name : Str) (size : Nat) : Except ParseError CandidateGame :=
  match regexExtractReleaseYear name with
  | none => Except.error ParseError.noReleaseYear
  | some y =>
    Except.ok
      { file_path := name
        title := regexExtractTitle name
        size := size
        release_date := yearToDate y
        version := regexExtractVersion name
        early_access := regexExtractEarlyAccessFlag name }

/-! ## Record store

`GamesService` is not part of the source slice; its operations are
modelled from the specification (section 4.3 for the classifier,
section 6 for the store operation set). -/

/-- The record store: the full row set, soft-deleted rows included. -/
abbrev Store := List GameRec

/-- Modelled from the spec: `RecordStore.findByPath` — path lookup that
includes soft-deleted rows. -/
def findByPath (st : Store) (p : Str) : Option GameRec :=
  st.find? (fun r => r.file_path == p)

/-- Modelled from the spec: `checkIfGameExistsInDatabase` of the missing
`GamesService`, per section 4.3 — keyed by exact `file_path` match
including soft-deleted rows; no row → `DOES_NOT_EXIST`; active and same
size → `EXISTS`; active and different size → `EXISTS_BUT_ALTERED`;
soft-deleted → `EXISTS_BUT_DELETED`. -/
def checkIfGameExistsInDatabase (st : Store) (g : CandidateGame) :
    GameExistance × Option GameRec :=
  match findByPath st g.file_path with
  | none => (GameExistance.DOES_NOT_EXIST, none)
  | some r =>
    if r.deleted then (GameExistance.EXISTS_BUT_DELETED, some r)
    else if r.size == g.size then (GameExistance.EXISTS, some r)
    else (GameExistance.EXISTS_BUT_ALTERED, some r)

/-- A fresh row id: one past the largest id in the store. -/
def nextId (st : Store) : Nat := st.foldl (fun m r => max m r.id) 0 + 1

/-- The row created for a new candidate: the six candidate fields, an
active marker, and every other column and relation empty. -/
def mkRec (i : Nat) (g : CandidateGame) : GameRec :=
  { id := i
    file_path := g.file_path
    title := g.title
    size := g.size
    release_date := g.release_date
    version := g.version
    early_access := g.early_access
    deleted := false
    rawg_id := none
    rawg_title := none
    rawg_release_date := none
    cache_date := none
    description := none
    box_image := none
    background_image := none
    website_url := none
    metacritic_rating := none
    average_playtime := none
    progresses := []
    publishers := []
    developers := []
    stores := []
    tags := []
    genres := [] }

/-- Modelled from the spec: `saveGame` on a row without an id
(`RecordStore.create`) — insert a new row with a fresh id. -/
def insertGame (st : Store) (g : CandidateGame) : Store :=
  st ++ [mkRec (nextId st) g]

/-- Modelled from the spec: `saveGame` on a row carrying an id
(`RecordStore.update`) — replace the row with that id in place. -/
def saveUpdated (st : Store) (r : GameRec) : Store :=
  st.map (fun x => if x.id == r.id then r else x)

/-- Clear the soft-delete marker of a row. -/
def setActive (r : GameRec) : GameRec := { r with deleted := false }

/-- Set the soft-delete marker of a row. -/
def setDeleted (r : GameRec) : GameRec := { r with deleted := true }

/-- Modelled from the spec: `restoreGame(id)` (`RecordStore.restore`) —
clear the soft-delete marker of the row with the given id. -/
def restoreGame (st : Store) (i : Nat) : Store :=
  st.map (fun x => if x.id == i then setActive x else x)

/-- Modelled from the spec: `deleteGame` (`RecordStore.softDelete`) —
set the soft-delete marker of the row with the given id; no row is
removed. -/
def deleteGameRec (st : Store) (i : Nat) : Store :=
  st.map (fun x => if x.id == i then setDeleted x else x)

/-- `updateGame` of `files.service.ts`: spread the existing row and
overwrite exactly `file_path`, `title`, `release_date`, `size`,
`version` and `early_access` from the updates, then save. -/
def mergeUpdate (gameToUpdate : GameRec) (updatesToApply : CandidateGame) : GameRec :=
  { gameToUpdate with
    file_path := updatesToApply.file_path
    title := updatesToApply.title
    release_date := updatesToApply.release_date
    size := updatesToApply.size
    version := updatesToApply.version
    early_access := updatesToApply.early_access }

/-- The store mutations the engine can issue, for counting and ordering
side effects. -/
inductive Mutation where
  | create (g : GameRec)
  | update (g : GameRec)
  | restore (i : Nat)
  | softDelete (i : Nat)
deriving DecidableEq, Repr

/-- One iteration of the `indexFiles` loop: parse, classify, apply the
per-verdict mutation.  A parse failure is caught by the per-file handler
and leaves the store untouched; the degenerate classifier outputs that
pair a row-carrying verdict with no row would throw on the `.id` access
and are likewise caught with nothing committed. -/
def indexOne (st : Store) (f : FileDesc) : Store × List Mutation :=
  match parseGame f.name f.size with
  | Except.error _ => (st, [])
  | Except.ok g =>
    match checkIfGameExistsInDatabase st g with
    | (GameExistance.EXISTS, _) => (st, [])
    | (GameExistance.DOES_NOT_EXIST, _) =>
      (insertGame st g, [Mutation.create (mkRec (nextId st) g)])
    | (GameExistance.EXISTS_BUT_DELETED, some r) =>
      let merged := mergeUpdate (setActive r) g
      (saveUpdated (restoreGame st r.id) merged,
        [Mutation.restore r.id, Mutation.update merged])
    | (GameExistance.EXISTS_BUT_DELETED, none) => (st, [])
    | (GameExistance.EXISTS_BUT_ALTERED, some r) =>
      let merged := mergeUpdate r g
      (saveUpdated st merged, [Mutation.update merged])
    | (GameExistance.EXISTS_BUT_ALTERED, none) => (st, [])

/-- `indexFiles`, with a failure oracle `F` on file names.  `F f.name =
true` models the store operation for that file throwing
(`StoreWriteError`); the per-file `try/catch` of the source logs it and
continues with the next file, the store left as it was for that file.
Returns the final store and the mutations issued, in order. -/
def indexFilesWithFailures (F : Str → Bool) : List FileDesc → Store → Store × List Mutation
  | [], st => (st, [])
  | f :: fs, st =>
    if F f.name then indexFilesWithFailures F fs st
    else
      let p := indexOne st f
      let q := indexFilesWithFailures F fs p.1
      (q.1, p.2 ++ q.2)

/-- `indexFiles` of `files.service.ts` on a store where every store
operation succeeds. -/
def indexFiles (fs : List FileDesc) (st : Store) : Store × List Mutation :=
  indexFilesWithFailures (fun _ => false) fs st

/-- `integrityCheck` of `files.service.ts`: iterate over the passed
database rows; every row whose `file_path` matches no file-system
descriptor name is soft-deleted in the store. -/
def integrityCheck (fs : List FileDesc) : List GameRec → Store → Store
  | [], st => st
  | g :: db, st =>
    if fs.any (fun f => f.name == g.file_path)
    then integrityCheck fs db st
    else integrityCheck fs db (deleteGameRec st g.id)

/-- The active (not soft-deleted) rows of a store — what the caller of
`integrityCheck` passes as `gamesInDatabase`. -/
def activeRows (st : Store) : List GameRec :=
  st.filter (fun r => !r.deleted)

/-- Store well-formedness: row ids are pairwise distinct and
`file_path` is unique across all rows, soft-deleted ones included
(the entity's unique column constraint and primary key). -/
def WF (st : Store) : Prop :=
  (st.map (fun r => r.id)).Nodup ∧ (st.map (fun r => r.file_path)).Nodup

instance : DecidablePred WF := fun st => by
  unfold WF
  infer_instance

/-! ## Filesystem lister (`getFiles`) -/

/-- The suffix after the last `'/'`, or `none` when the path has no
slash (POSIX path rules, as on the deployment platform). -/
def afterLastSlash : Str → Option Str
  | [] => none
  | c :: rest =>
    if c == '/' then some ((afterLastSlash rest).getD rest)
    else afterLastSlash rest

/-- POSIX `basename`-style last path component. -/
def basenameOf (s : Str) : Str := (afterLastSlash s).getD s

/-- Node's `path.extname`: the part of the last path component from its
last dot to the end; the empty string when the component has no dot,
when its only dot is its leading character (dotfiles), or for `".."`. -/
def extname (p : Str) : Str :=
  let b := basenameOf p
  if b = (".".toList) ++ (".".toList) then []
  else
    match stripExtAux b with
    | none => []
    | some pre => if pre = [] then [] else b.drop pre.length

/-- The fixed archive-extension allow-list of `getFiles`. -/
def allowedExtensions : List Str :=
  [ (".zip".toList), (".7z".toList), (".rar".toList), (".tar".toList),
    (".tar.gz".toList), (".tar.bz2".toList), (".tar.xz".toList),
    (".tgz".toList), (".tbz2".toList), (".txz".toList) ]

/-- The filter predicate of `getFiles`: keep a listed path when
`extname` of it is a member of the allow-list. -/
def gamevaultFileKeep (p : Str) : Bool :=
  allowedExtensions.contains (extname p)

/-- `getFiles` of `files.service.ts` on an abstract recursive directory
listing (relative names already paired with their stat sizes): filter by
the extension allow-list. -/
def getFiles (listing : List FileDesc) : List FileDesc :=
  listing.filter (fun f => gamevaultFileKeep f.name)

example : extname ("foo.tar.gz".toList) = (".gz".toList) := by decide

example : extname ("foo.tgz".toList) = (".tgz".toList) := by decide

example : extname (".bashrc".toList) = [] := by decide

example : gamevaultFileKeep ("Portal (2007).zip".toList) = true := by decide

example : gamevaultFileKeep ("Portal (2007).tar.gz".toList) = false := by decide

/-! ## Leftmost-match scanning, in general -/

theorem scanFirst_eq_none_iff (step : Str → Option α) (s : Str) :
    scanFirst step s = none ↔ ∀ i < s.length, step (s.drop i) = none := by
  induction s with
  | nil => simp [scanFirst]
  | cons c t ih =>
    constructor
    · intro h i hi
      rw [scanFirst] at h
      rcases h0 : step (c :: t) with _ | a
      · rw [h0] at h
        match i, hi with
        | 0, _ => simpa using h0
        | j + 1, hj =>
          have hj' : j < t.length := by simpa using hj
          exact (ih.mp h) j hj'
      · rw [h0] at h
        exact absurd h (by simp)
    · intro h
      rw [scanFirst]
      have h0 : step (c :: t) = none := by simpa using h 0 (by simp)
      rw [h0]
      exact ih.mpr fun j hj => by
        have := h (j + 1) (by simpa using hj)
        simpa using this

theorem scanFirst_eq_some_iff (step : Str → Option α) (s : Str) (a : α) :
    scanFirst step s = some a ↔
      ∃ i, i < s.length ∧ step (s.drop i) = some a ∧
        ∀ j < i, step (s.drop j) = none := by
  induction s with
  | nil => simp [scanFirst]
  | cons c t ih =>
    rw [scanFirst]
    rcases h0 : step (c :: t) with _ | b
    · constructor
      · intro h
        rcases ih.mp h with ⟨i, hi, hstep, hbefore⟩
        refine ⟨i + 1, by simpa using hi, by simpa using hstep, ?_⟩
        intro j hj
        match j, hj with
        | 0, _ => simpa using h0
        | k + 1, hk => simpa using hbefore k (by omega)
      · rintro ⟨i, hi, hstep, hbefore⟩
        match i, hi with
        | 0, _ => simp [h0] at hstep
        | k + 1, hk =>
          refine ih.mpr ⟨k, by simpa using hk, by simpa using hstep, ?_⟩
          intro j hj
          have := hbefore (j + 1) (by omega)
          simpa using this
    · constructor
      · intro h
        exact ⟨0, by simp, by simpa [h0] using h, by omega⟩
      · rintro ⟨i, hi, hstep, hbefore⟩
        match i with
        | 0 =>
          have : some b = some a := by simpa [h0] using hstep
          simpa using this
        | k + 1 =>
          have := hbefore 0 (by omega)
          simp [h0] at this

theorem scanFirst_isSome_iff (step : Str → Option α) (s : Str) :
    (scanFirst step s).isSome = true ↔ ∃ i < s.length, (step (s.drop i)).isSome = true := by
  rcases h : scanFirst step s with _ | a
  · simp only [Option.isSome_none, Bool.false_eq_true, false_iff]
    push_neg
    intro i hi
    rw [(scanFirst_eq_none_iff step s).mp h i hi]
    simp
  · simp only [Option.isSome_some, true_iff]
    rcases (scanFirst_eq_some_iff step s a).mp h with ⟨i, hi, hstep, _⟩
    exact ⟨i, hi, by simp [hstep]⟩

/-! ## takeBody: splitting at the first closing parenthesis -/

theorem takeBody_eq_none_iff (u : Str) : takeBody u = none ↔ ')' ∉ u := by
  induction u with
  | nil => simp [takeBody]
  | cons c rest ih =>
    rw [takeBody]
    rcases eq_or_ne c ')' with rfl | hc
    · simp
    · have hcb : (c == ')') = false := by simpa using hc
      rcases h : takeBody rest with _ | p
      · simp only [hcb, Bool.false_eq_true, if_false, h, Option.map_none', List.mem_cons,
          true_iff]
        intro hmem
        rcases hmem with hmem | hmem
        · exact hc hmem.symm
        · exact (ih.mp h) hmem
      · simp only [hcb, Bool.false_eq_true, if_false, h, Option.map_some', List.mem_cons]
        constructor
        · intro hcontr
          exact absurd hcontr (by simp)
        · intro hmem
          have hr : ')' ∈ rest := by
            by_contra hno
            rw [ih.mpr hno] at h
            exact absurd h (by simp)
          exact absurd (Or.inr hr) hmem

theorem takeBody_eq_some (u : Str) (b r : Str) (h : takeBody u = some (b, r)) :
    u = b ++ ')' :: r ∧ ')' ∉ b := by
  induction u generalizing b r with
  | nil => simp [takeBody] at h
  | cons c rest ih =>
    rw [takeBody] at h
    rcases eq_or_ne c ')' with rfl | hc
    · simp only [beq_self_eq_true, if_true, Option.some_inj, Prod.mk.injEq] at h
      obtain ⟨hb, hr⟩ := h
      subst hb; subst hr
      simp
    · have hcb : (c == ')') = false := by simpa using hc
      rcases h' : takeBody rest with _ | p
      · simp [hcb, h'] at h
      · obtain ⟨b', r'⟩ := p
        simp only [hcb, Bool.false_eq_true, if_false, h', Option.map_some', Option.some_inj,
          Prod.mk.injEq] at h
        obtain ⟨hb, hr⟩ := h
        subst hr
        obtain ⟨hu, hnb⟩ := ih b' r' h'
        constructor
        · rw [← hb, hu]; simp
        · rw [← hb]
          intro hmem
          rw [List.mem_cons] at hmem
          rcases hmem with hmem | hmem
          · exact hc hmem.symm
          · exact hnb hmem

theorem takeBody_append_of_some (u t : Str) (b r : Str) (h : takeBody u = some (b, r)) :
    takeBody (u ++ t) = some (b, r ++ t) := by
  induction u generalizing b r with
  | nil => simp [takeBody] at h
  | cons c rest ih =>
    rw [takeBody] at h
    rw [List.cons_append, takeBody]
    rcases hc : (c == ')') with _ | _
    · simp only [hc, Bool.false_eq_true, if_false] at h ⊢
      rcases h' : takeBody rest with _ | p
      · simp [h'] at h
      · obtain ⟨b', r'⟩ := p
        simp only [h', Option.map_some', Option.some_inj, Prod.mk.injEq] at h
        obtain ⟨hb, hr⟩ := h
        rw [ih b' r' h']
        simp [hb, hr]
    · simp only [hc, if_true] at h ⊢
      simpa using h

theorem mem_drop_of_le {a : α} {l : List α} {m n : Nat} (hmn : m ≤ n)
    (h : a ∈ l.drop n) : a ∈ l.drop m := by
  have : l.drop n = (l.drop m).drop (n - m) := by
    rw [List.drop_drop]
    congr 1
    omega
  rw [this] at h
  exact (List.drop_sublist _ _).mem h

/-! ## The year matcher, characterised -/

theorem yearStep_eq_some_iff (u : Str) (y : Str) :
    yearStep u = some y ↔
      ∃ a b c d r, u = '(' :: a :: b :: c :: d :: ')' :: r ∧
        a.isDigit = true ∧ b.isDigit = true ∧ c.isDigit = true ∧ d.isDigit = true ∧
        y = [a, b, c, d] := by
  match u with
  | [] => simp [yearStep]
  | [c0] => simp [yearStep]
  | [c0, c1] => simp [yearStep]
  | [c0, c1, c2] => simp [yearStep]
  | [c0, c1, c2, c3] => simp [yearStep]
  | [c0, c1, c2, c3, c4] => simp [yearStep]
  | c0 :: c1 :: c2 :: c3 :: c4 :: c5 :: rest =>
    simp only [yearStep]
    rcases hg : (c0 == '(' && c1.isDigit && c2.isDigit && c3.isDigit && c4.isDigit && c5 == ')') with _ | _
    · simp only [Bool.false_eq_true, if_false]
      constructor
      · intro hcontr
        exact absurd hcontr (by simp)
      · rintro ⟨a, b, c, d, r, hu, ha, hb, hc, hd, hy⟩
        have h0 : c0 = '(' := by injection hu
        have h1 : c1 = a := by injection hu with _ hu1; injection hu1
        have h2 : c2 = b := by
          injection hu with _ hu1; injection hu1 with _ hu2; injection hu2
        have h3 : c3 = c := by
          injection hu with _ hu1; injection hu1 with _ hu2; injection hu2 with _ hu3
          injection hu3
        have h4 : c4 = d := by
          injection hu with _ hu1; injection hu1 with _ hu2; injection hu2 with _ hu3
          injection hu3 with _ hu4; injection hu4
        have h5 : c5 = ')' := by
          injection hu with _ hu1; injection hu1 with _ hu2; injection hu2 with _ hu3
          injection hu3 with _ hu4; injection hu4 with _ hu5; injection hu5
        rw [h0, h1, h2, h3, h4, h5, ha, hb, hc, hd] at hg
        simp at hg
    · simp only [if_true]
      simp only [Bool.and_eq_true, beq_iff_eq] at hg
      obtain ⟨⟨⟨⟨⟨h0, h1⟩, h2⟩, h3⟩, h4⟩, h5⟩ := hg
      constructor
      · intro hy
        refine ⟨c1, c2, c3, c4, rest, ?_, h1, h2, h3, h4, ?_⟩
        · rw [h0, h5]
        · injection hy with hy
          exact hy.symm
      · rintro ⟨a, b, c, d, r, hu, ha, hb, hc, hd, hy⟩
        have h1' : c1 = a := by injection hu with _ hu1; injection hu1
        have h2' : c2 = b := by
          injection hu with _ hu1; injection hu1 with _ hu2; injection hu2
        have h3' : c3 = c := by
          injection hu with _ hu1; injection hu1 with _ hu2; injection hu2 with _ hu3
          injection hu3
        have h4' : c4 = d := by
          injection hu with _ hu1; injection hu1 with _ hu2; injection hu2 with _ hu3
          injection hu3 with _ hu4; injection hu4
        rw [hy, h1', h2', h3', h4']

theorem yearStep_some_length (u y : Str) (h : yearStep u = some y) : 6 ≤ u.length := by
  rcases (yearStep_eq_some_iff u y).mp h with ⟨a, b, c, d, r, hu, _⟩
  rw [hu]
  simp

theorem yearStep_append (u t : Str) (h6 : 6 ≤ u.length) :
    yearStep (u ++ t) = yearStep u := by
  match u with
  | c0 :: c1 :: c2 :: c3 :: c4 :: c5 :: rest => rfl
  | [] | [_] | [_, _] | [_, _, _] | [_, _, _, _] | [_, _, _, _, _] => simp at h6

theorem scanYear_some_length (s y : Str) (h : scanFirst yearStep s = some y) :
    6 ≤ s.length := by
  rcases (scanFirst_eq_some_iff _ _ _).mp h with ⟨i, hi, hstep, _⟩
  have h6 := yearStep_some_length _ _ hstep
  rw [List.length_drop] at h6
  omega

theorem scanYear_append (d t : Str) (y : Str) (h : scanFirst yearStep d = some y) :
    scanFirst yearStep (d ++ t) = some y := by
  induction d with
  | nil => simp [scanFirst] at h
  | cons c d2 ih =>
    rw [scanFirst] at h
    rw [List.cons_append, scanFirst]
    rcases h0 : yearStep (c :: d2) with _ | y'
    · rw [h0] at h
      have hlen : 6 ≤ d2.length := scanYear_some_length d2 y h
      have h0' : yearStep (c :: (d2 ++ t)) = none := by
        have heq := yearStep_append (c :: d2) t (by simp; omega)
        rw [List.cons_append] at heq
        rw [heq, h0]
      rw [h0']
      exact ih h
    · rw [h0] at h
      have heq := yearStep_append (c :: d2) t (yearStep_some_length _ _ h0)
      rw [List.cons_append] at heq
      rw [heq, h0]
      exact h

/-! ## The version matcher, characterised -/

theorem first_close_unique (r r0 : Str) :
    ∀ b b0 : Str, ')' ∉ b → ')' ∉ b0 → b ++ ')' :: r = b0 ++ ')' :: r0 →
      b = b0 ∧ r = r0 := by
  intro b
  induction b with
  | nil =>
    rintro b0 _ hnb0 h
    rcases b0 with _ | ⟨y, ys⟩
    · simpa using h
    · simp only [List.nil_append, List.cons_append, List.cons.injEq] at h
      exact absurd (by rw [← h.1]; exact List.mem_cons_self _ _) hnb0
  | cons x xs ih =>
    rintro b0 hnb hnb0 h
    rcases b0 with _ | ⟨y, ys⟩
    · simp only [List.cons_append, List.nil_append, List.cons.injEq] at h
      exact absurd (by rw [h.1]; exact List.mem_cons_self _ _) hnb
    · simp only [List.cons_append, List.cons.injEq] at h
      obtain ⟨hxy, hrest⟩ := h
      have hx : ')' ∉ xs := fun hm => hnb (List.mem_cons_of_mem _ hm)
      have hy : ')' ∉ ys := fun hm => hnb0 (List.mem_cons_of_mem _ hm)
      obtain ⟨hb, hr⟩ := ih ys hx hy hrest
      exact ⟨by rw [hxy, hb], hr⟩

theorem versionStep_eq_some_iff (u : Str) (v : Str) :
    versionStep u = some v ↔
      ∃ b r, u = '(' :: 'v' :: (b ++ ')' :: r) ∧ ')' ∉ b ∧ b ≠ [] ∧ v = 'v' :: b := by
  match u with
  | [] => simp [versionStep]
  | [c0] => simp [versionStep]
  | c0 :: c1 :: rest =>
    rcases hg : (c0 == '(' && c1 == 'v') with _ | _
    · have hstep : versionStep (c0 :: c1 :: rest) = none := by
        simp [versionStep, hg]
      rw [hstep]
      constructor
      · intro hcontr
        exact absurd hcontr (by simp)
      · rintro ⟨b, r, hu, _, _, _⟩
        have h0 : c0 = '(' := by injection hu
        have h1 : c1 = 'v' := by injection hu with _ hu1; injection hu1
        rw [h0, h1] at hg
        simp at hg
    · simp only [Bool.and_eq_true, beq_iff_eq] at hg
      obtain ⟨h0, h1⟩ := hg
      subst h0
      subst h1
      rcases hb : takeBody rest with _ | p
      · have hstep : versionStep ('(' :: 'v' :: rest) = none := by
          simp [versionStep, hb]
        rw [hstep]
        constructor
        · intro hcontr
          exact absurd hcontr (by simp)
        · rintro ⟨b, r, hu, hnb, hbne, hv⟩
          have hrest : rest = b ++ ')' :: r := by
            injection hu with _ hu1; injection hu1
          have : ')' ∈ rest := by rw [hrest]; simp
          exact absurd this ((takeBody_eq_none_iff rest).mp hb)
      · obtain ⟨b0, r0⟩ := p
        obtain ⟨hrest, hnb0⟩ := takeBody_eq_some rest b0 r0 hb
        rcases b0 with _ | ⟨x, xs⟩
        · have hstep : versionStep ('(' :: 'v' :: rest) = none := by
            simp [versionStep, hb]
          rw [hstep]
          constructor
          · intro hcontr
            exact absurd hcontr (by simp)
          · rintro ⟨b, r, hu, hnb, hbne, hv⟩
            have hrest' : rest = b ++ ')' :: r := by
              injection hu with _ hu1; injection hu1
            rw [hrest'] at hrest
            simp only [List.nil_append] at hrest
            obtain ⟨hb', _⟩ := first_close_unique r r0 b [] hnb (by simp) hrest
            exact absurd hb' hbne
        · have hstep : versionStep ('(' :: 'v' :: rest) = some ('v' :: x :: xs) := by
            simp [versionStep, hb]
          rw [hstep]
          constructor
          · intro hv
            injection hv with hv
            refine ⟨x :: xs, r0, ?_, hnb0, by simp, hv.symm⟩
            rw [hrest]
          · rintro ⟨b, r, hu, hnb, hbne, hv⟩
            have hrest' : rest = b ++ ')' :: r := by
              injection hu with _ hu1; injection hu1
            rw [hrest'] at hrest
            obtain ⟨hb', _⟩ := first_close_unique r r0 b (x :: xs) hnb hnb0 hrest
            rw [hv, hb']

theorem versionStep_some_append (u t : Str) (v : Str) (h : versionStep u = some v) :
    versionStep (u ++ t) = some v := by
  rcases (versionStep_eq_some_iff u v).mp h with ⟨b, r, hu, hnb, hbne, hv⟩
  apply (versionStep_eq_some_iff (u ++ t) v).mpr
  refine ⟨b, r ++ t, ?_, hnb, hbne, hv⟩
  rw [hu]
  simp

theorem versionStep_some_close (u : Str) (v : Str) (h : versionStep u = some v) :
    ')' ∈ u.drop 2 := by
  rcases (versionStep_eq_some_iff u v).mp h with ⟨b, r, hu, _, _, _⟩
  rw [hu]
  simp

theorem versionStep_none_append (u t : Str) (h : versionStep u = none)
    (hc : ')' ∈ u.drop 2) : versionStep (u ++ t) = none := by
  match u with
  | [] => simp at hc
  | [c0] => simp at hc
  | c0 :: c1 :: rest =>
    have hc' : ')' ∈ rest := by simpa using hc
    rcases hg : (c0 == '(' && c1 == 'v') with _ | _
    · show versionStep (c0 :: c1 :: (rest ++ t)) = none
      simp [versionStep, hg]
    · simp only [Bool.and_eq_true, beq_iff_eq] at hg
      obtain ⟨h0, h1⟩ := hg
      subst h0
      subst h1
      rcases hb : takeBody rest with _ | p
      · exact absurd hc' ((takeBody_eq_none_iff rest).mp hb)
      · obtain ⟨b0, r0⟩ := p
        rcases b0 with _ | ⟨x, xs⟩
        · have hb' := takeBody_append_of_some rest t [] r0 hb
          show versionStep ('(' :: 'v' :: (rest ++ t)) = none
          simp [versionStep, hb']
        · have hstep : versionStep ('(' :: 'v' :: rest) = some ('v' :: x :: xs) := by
            simp [versionStep, hb]
          rw [hstep] at h
          exact absurd h (by simp)

theorem scanVersion_close (s : Str) (v : Str) (h : scanFirst versionStep s = some v) :
    ')' ∈ s.drop 1 := by
  rcases (scanFirst_eq_some_iff _ _ _).mp h with ⟨i, hi, hstep, _⟩
  have := versionStep_some_close _ _ hstep
  rw [List.drop_drop] at this
  exact mem_drop_of_le (by omega) this

theorem scanVersion_append (d t : Str) (v : Str) (h : scanFirst versionStep d = some v) :
    scanFirst versionStep (d ++ t) = some v := by
  induction d with
  | nil => simp [scanFirst] at h
  | cons c d2 ih =>
    rw [scanFirst] at h
    rw [List.cons_append, scanFirst]
    rcases h0 : versionStep (c :: d2) with _ | v'
    · rw [h0] at h
      have hclose : ')' ∈ d2.drop 1 := scanVersion_close d2 v h
      have h0' : versionStep (c :: (d2 ++ t)) = none := by
        have := versionStep_none_append (c :: d2) t h0 (by
          simp only [List.drop_succ_cons]
          exact mem_drop_of_le (by omega) hclose)
        rw [List.cons_append] at this
        exact this
      rw [h0']
      exact ih h
    · rw [h0] at h
      have := versionStep_some_append (c :: d2) t v' h0
      rw [List.cons_append] at this
      rw [this]
      exact h

/-! ## The early-access matcher, characterised -/

theorem eaStep_isSome_iff (u : Str) :
    (eaStep u).isSome = true ↔ ∃ r, u = '(' :: 'E' :: 'A' :: ')' :: r := by
  match u with
  | [] => simp [eaStep]
  | [c0] => simp [eaStep]
  | [c0, c1] => simp [eaStep]
  | [c0, c1, c2] => simp [eaStep]
  | c0 :: c1 :: c2 :: c3 :: rest =>
    rcases hg : (c0 == '(' && c1 == 'E' && c2 == 'A' && c3 == ')') with _ | _
    · have hstep : eaStep (c0 :: c1 :: c2 :: c3 :: rest) = none := by
        simp [eaStep, hg]
      rw [hstep]
      simp only [Option.isSome_none, Bool.false_eq_true, false_iff]
      rintro ⟨r, hu⟩
      have h0 : c0 = '(' := by injection hu
      have h1 : c1 = 'E' := by injection hu with _ hu1; injection hu1
      have h2 : c2 = 'A' := by
        injection hu with _ hu1; injection hu1 with _ hu2; injection hu2
      have h3 : c3 = ')' := by
        injection hu with _ hu1; injection hu1 with _ hu2; injection hu2 with _ hu3
        injection hu3
      rw [h0, h1, h2, h3] at hg
      simp at hg
    · have hstep : eaStep (c0 :: c1 :: c2 :: c3 :: rest) = some () := by
        simp [eaStep, hg]
      rw [hstep]
      simp only [Option.isSome_some, true_iff]
      simp only [Bool.and_eq_true, beq_iff_eq] at hg
      obtain ⟨⟨⟨h0, h1⟩, h2⟩, h3⟩ := hg
      exact ⟨rest, by rw [h0, h1, h2, h3]⟩

theorem regexExtractEarlyAccessFlag_iff (s : Str) :
    regexExtractEarlyAccessFlag s = true ↔
      ∃ l r, s = l ++ '(' :: 'E' :: 'A' :: ')' :: r := by
  rw [regexExtractEarlyAccessFlag, scanFirst_isSome_iff]
  constructor
  · rintro ⟨i, hi, hsome⟩
    rcases (eaStep_isSome_iff (s.drop i)).mp hsome with ⟨r, hdrop⟩
    exact ⟨s.take i, r, by rw [← hdrop]; simp⟩
  · rintro ⟨l, r, hs⟩
    refine ⟨l.length, ?_, ?_⟩
    · rw [hs]
      simp
    · rw [hs, List.drop_left]
      exact (eaStep_isSome_iff _).mpr ⟨r, rfl⟩

/-! ## Title pipeline lemmas -/

/-- The suffix after the last path separator, with no line-terminator
restriction — the plain "last path-separator-delimited segment" of the
specification. -/
def afterLastSep : Str → Option Str
  | [] => none
  | c :: rest =>
    if isSep c then some ((afterLastSep rest).getD rest)
    else afterLastSep rest

/-- The last path-separator-delimited segment of a path (the whole path
when it has no separator). -/
def lastSegment (s : Str) : Str := (afterLastSep s).getD s

/-- The title as the specification words it: last path segment, then
extension dropped, then every parenthesized group removed, then
trimmed. -/
def specTitle (s : Str) : Str :=
  jsTrim (removeParens (removeExt (lastSegment s)))

theorem stripDirAux_of_noLineTerm (s : Str) (h : ∀ c ∈ s, isLineTerm c = false) :
    stripDirAux s = afterLastSep s := by
  induction s with
  | nil => rfl
  | cons c rest ih =>
    rw [stripDirAux, afterLastSep]
    rw [h c (List.mem_cons_self c rest)]
    have ih' := ih fun x hx => h x (List.mem_cons_of_mem c hx)
    simp only [Bool.false_eq_true, if_false]
    rw [ih']

theorem regexExtractTitle_eq_specTitle (s : Str)
    (h : ∀ c ∈ s, isLineTerm c = false) :
    regexExtractTitle s = specTitle s := by
  rw [regexExtractTitle, specTitle, removeDir, lastSegment,
    stripDirAux_of_noLineTerm s h]

theorem stripDirAux_of_noSep (s : Str) (h : ∀ c ∈ s, isSep c = false) :
    stripDirAux s = none := by
  induction s with
  | nil => rfl
  | cons c rest ih =>
    rw [stripDirAux]
    rw [h c (List.mem_cons_self c rest)]
    have ih' := ih fun x hx => h x (List.mem_cons_of_mem c hx)
    rcases hlt : isLineTerm c with _ | _
    · simp only [Bool.false_eq_true, if_false]
      rw [ih']
    · simp

theorem stripDirAux_dir_slash (d b : Str)
    (hd : ∀ c ∈ d, isLineTerm c = false) (hb : ∀ c ∈ b, isSep c = false) :
    stripDirAux (d ++ '/' :: b) = some b := by
  induction d with
  | nil =>
    rw [List.nil_append, stripDirAux]
    have h1 : isLineTerm '/' = false := by decide
    have h2 : isSep '/' = true := by decide
    rw [h1, h2]
    simp only [Bool.false_eq_true, if_false, if_true]
    rw [stripDirAux_of_noSep b hb]
    rfl
  | cons c d2 ih =>
    rw [List.cons_append, stripDirAux]
    rw [hd c (List.mem_cons_self c d2)]
    have ih' := ih fun x hx => hd x (List.mem_cons_of_mem c hx)
    simp only [Bool.false_eq_true, if_false]
    rw [ih']
    rcases hsep : isSep c with _ | _
    · simp
    · simp

theorem removeDir_dir_slash (d b : Str)
    (hd : ∀ c ∈ d, isLineTerm c = false) (hb : ∀ c ∈ b, isSep c = false) :
    removeDir (d ++ '/' :: b) = b := by
  rw [removeDir, stripDirAux_dir_slash d b hd hb]
  rfl

theorem removeDir_of_noSep (b : Str) (hb : ∀ c ∈ b, isSep c = false) :
    removeDir b = b := by
  rw [removeDir, stripDirAux_of_noSep b hb]
  rfl

theorem regexExtractTitle_dir_slash (d b : Str)
    (hd : ∀ c ∈ d, isLineTerm c = false) (hb : ∀ c ∈ b, isSep c = false) :
    regexExtractTitle (d ++ '/' :: b) = regexExtractTitle b := by
  rw [regexExtractTitle, regexExtractTitle, removeDir_dir_slash d b hd hb,
    removeDir_of_noSep b hb]

/-! ## Empty titles -/

theorem dropWhile_eq_nil_iff_all (p : α → Bool) (l : List α) :
    l.dropWhile p = [] ↔ ∀ x ∈ l, p x = true := by
  induction l with
  | nil => simp
  | cons a t ih =>
    rw [List.dropWhile]
    rcases hp : p a with _ | _
    · simp only [Bool.false_eq_true, if_false]
      constructor
      · intro hcontr
        exact absurd hcontr (by simp)
      · intro h
        rw [h a (List.mem_cons_self a t)] at hp
        simp at hp
    · simp only [if_true]
      rw [ih]
      constructor
      · intro h x hx
        rcases (List.mem_cons).mp hx with rfl | hx'
        · exact hp
        · exact h x hx'
      · intro h x hx
        exact h x (List.mem_cons_of_mem a hx)

theorem all_of_all_dropWhile (p : α → Bool) (l : List α)
    (h : ∀ x ∈ l.dropWhile p, p x = true) : ∀ x ∈ l, p x = true := by
  intro x hx
  rw [← List.takeWhile_append_dropWhile p l] at hx
  rcases List.mem_append.mp hx with hx' | hx'
  · exact List.mem_takeWhile_imp hx'
  · exact h x hx'

theorem jsTrim_eq_nil_iff (s : Str) :
    jsTrim s = [] ↔ ∀ c ∈ s, isJsSpace c = true := by
  rw [jsTrim]
  rw [List.reverse_eq_nil_iff]
  rw [dropWhile_eq_nil_iff_all]
  constructor
  · intro h
    apply all_of_all_dropWhile isJsSpace s
    intro x hx
    exact h x (by simpa using hx)
  · intro h x hx
    have hx' : x ∈ s.dropWhile isJsSpace := by simpa using hx
    have : x ∈ s := by
      rw [← List.takeWhile_append_dropWhile isJsSpace s]
      exact List.mem_append.mpr (Or.inr hx')
    exact h x this

/-! ## Year groups as substrings -/

/-- A parenthesized group of exactly four digits occurs somewhere in the
string (the precondition for the release-year extraction to succeed). -/
def hasYearGroup (s : Str) : Prop :=
  ∃ l a b c d r, s = l ++ '(' :: a :: b :: c :: d :: ')' :: r ∧
    a.isDigit = true ∧ b.isDigit = true ∧ c.isDigit = true ∧ d.isDigit = true

theorem hasYearGroup_iff_scan (s : Str) :
    hasYearGroup s ↔ (regexExtractReleaseYear s).isSome = true := by
  rw [regexExtractReleaseYear, scanFirst_isSome_iff]
  constructor
  · rintro ⟨l, a, b, c, d, r, hs, ha, hb, hc, hd⟩
    refine ⟨l.length, ?_, ?_⟩
    · rw [hs]
      simp
    · rw [hs, List.drop_left]
      have : yearStep ('(' :: a :: b :: c :: d :: ')' :: r) = some [a, b, c, d] :=
        (yearStep_eq_some_iff _ _).mpr ⟨a, b, c, d, r, rfl, ha, hb, hc, hd, rfl⟩
      simp [this]
  · rintro ⟨i, hi, hsome⟩
    rcases hstep : yearStep (s.drop i) with _ | y
    · rw [hstep] at hsome
      simp at hsome
    · rcases (yearStep_eq_some_iff _ _).mp hstep with ⟨a, b, c, d, r, hdrop, ha, hb, hc, hd, _⟩
      exact ⟨s.take i, a, b, c, d, r, by rw [← hdrop]; simp, ha, hb, hc, hd⟩

theorem regexExtractReleaseYear_eq_none_of_not_hasYearGroup (s : Str)
    (h : ¬ hasYearGroup s) : regexExtractReleaseYear s = none := by
  rcases hy : regexExtractReleaseYear s with _ | y
  · rfl
  · exact absurd ((hasYearGroup_iff_scan s).mpr (by simp [hy])) h

/-! ## Parsing, inverted -/

theorem parseGame_error_of_none (n : Str) (sz : Nat)
    (h : regexExtractReleaseYear n = none) :
    parseGame n sz = Except.error ParseError.noReleaseYear := by
  rw [parseGame, h]

theorem parseGame_ok_of_some (n : Str) (sz : Nat) (y : Str)
    (h : regexExtractReleaseYear n = some y) :
    parseGame n sz = Except.ok
      { file_path := n
        title := regexExtractTitle n
        size := sz
        release_date := yearToDate y
        version := regexExtractVersion n
        early_access := regexExtractEarlyAccessFlag n } := by
  rw [parseGame, h]

theorem parseGame_ok_fields (n : Str) (sz : Nat) (g : CandidateGame)
    (h : parseGame n sz = Except.ok g) :
    g.file_path = n ∧ g.size = sz ∧ g.title = regexExtractTitle n ∧
      g.version = regexExtractVersion n ∧
      g.early_access = regexExtractEarlyAccessFlag n ∧
      ∃ y, regexExtractReleaseYear n = some y ∧ g.release_date = yearToDate y := by
  rw [parseGame] at h
  rcases hy : regexExtractReleaseYear n with _ | y
  · rw [hy] at h
    exact absurd h (by simp)
  · rw [hy] at h
    simp only [Except.ok.injEq] at h
    subst h
    exact ⟨rfl, rfl, rfl, rfl, rfl, y, rfl, rfl⟩

/-! ## Store lemmas -/

theorem find?_map_of_status (p : α → Bool) (φ : α → α) (l : List α)
    (hstat : ∀ x ∈ l, p (φ x) = p x) :
    List.find? p (l.map φ) = (List.find? p l).map φ := by
  induction l with
  | nil => rfl
  | cons a t ih =>
    rw [List.map_cons]
    rcases hpa : p a with _ | _
    · have h1 : p (φ a) = false := by
        rw [hstat a (List.mem_cons_self a t)]
        exact hpa
      rw [List.find?_cons_of_neg _ (by simp [h1]),
        List.find?_cons_of_neg _ (by simp [hpa])]
      exact ih fun x hx => hstat x (List.mem_cons_of_mem a hx)
    · have h1 : p (φ a) = true := by
        rw [hstat a (List.mem_cons_self a t)]
        exact hpa
      rw [List.find?_cons_of_pos _ h1, List.find?_cons_of_pos _ hpa]
      rfl

theorem findByPath_eq_none_iff (st : Store) (p : Str) :
    findByPath st p = none ↔ ∀ r ∈ st, r.file_path ≠ p := by
  rw [findByPath, List.find?_eq_none]
  constructor
  · intro h r hr
    simpa using h r hr
  · intro h r hr
    simpa using h r hr

theorem findByPath_some_path (st : Store) (p : Str) (r : GameRec)
    (h : findByPath st p = some r) : r.file_path = p := by
  have := List.find?_some h
  simpa using this

theorem findByPath_some_mem (st : Store) (p : Str) (r : GameRec)
    (h : findByPath st p = some r) : r ∈ st :=
  List.mem_of_find?_eq_some h

theorem findByPath_insert_of_none (st : Store) (row : GameRec)
    (hn : findByPath st row.file_path = none) :
    findByPath (st ++ [row]) row.file_path = some row := by
  rw [findByPath, List.find?_append]
  rw [findByPath] at hn
  rw [hn]
  rw [Option.none_or]
  rw [List.find?_cons_of_pos _ (by simp)]

theorem findByPath_insert_of_ne (st : Store) (row : GameRec) (p : Str)
    (hne : row.file_path ≠ p) :
    findByPath (st ++ [row]) p = findByPath st p := by
  rw [findByPath, List.find?_append]
  have h1 : List.find? (fun r => r.file_path == p) [row] = none := by
    rw [List.find?_cons_of_neg _ (by simp [hne])]
    rfl
  rw [h1, Option.or_none]
  rfl

theorem foldl_max_id_le (st : Store) :
    ∀ n : Nat, n ≤ st.foldl (fun m r => max m r.id) n ∧
      ∀ r ∈ st, r.id ≤ st.foldl (fun m r => max m r.id) n := by
  induction st with
  | nil =>
    intro n
    exact ⟨Nat.le_refl n, by simp⟩
  | cons a t ih =>
    intro n
    rw [List.foldl_cons]
    constructor
    · exact Nat.le_trans (Nat.le_max_left n a.id) (ih (max n a.id)).1
    · intro r hr
      rcases List.mem_cons.mp hr with rfl | hr'
      · exact Nat.le_trans (Nat.le_max_right n r.id) (ih (max n r.id)).1
      · exact (ih (max n a.id)).2 r hr'

theorem id_lt_nextId (st : Store) (r : GameRec) (hr : r ∈ st) :
    r.id < nextId st := by
  have := (foldl_max_id_le st 0).2 r hr
  rw [nextId]
  omega

theorem saveUpdated_restore_eq_map (st : Store) (i : Nat) (m : GameRec)
    (hm : m.id = i) :
    saveUpdated (restoreGame st i) m =
      st.map (fun x => if x.id == i then m else x) := by
  rw [saveUpdated, restoreGame, List.map_map]
  apply List.map_congr_left
  intro x _
  by_cases hid : x.id = i
  · simp [Function.comp, setActive, hid, hm]
  · simp [Function.comp, hid, hm]

theorem saveUpdated_eq_map (st : Store) (m : GameRec) :
    saveUpdated st m = st.map (fun x => if x.id == m.id then m else x) := rfl

/-! ## The classifier, inverted -/

theorem checkIf_not_exist_iff (st : Store) (g : CandidateGame) :
    checkIfGameExistsInDatabase st g = (GameExistance.DOES_NOT_EXIST, none) ↔
      findByPath st g.file_path = none := by
  rw [checkIfGameExistsInDatabase]
  rcases hf : findByPath st g.file_path with _ | r
  · simp
  · by_cases hdel : r.deleted <;> by_cases hsz : r.size == g.size <;>
      simp [hdel, hsz]

theorem checkIf_exists_iff (st : Store) (g : CandidateGame) (r : GameRec) :
    checkIfGameExistsInDatabase st g = (GameExistance.EXISTS, some r) ↔
      findByPath st g.file_path = some r ∧ r.deleted = false ∧ r.size = g.size := by
  rw [checkIfGameExistsInDatabase]
  rcases hf : findByPath st g.file_path with _ | r'
  · simp
  · rcases hdel : r'.deleted with _ | _ <;> rcases hsz : (r'.size == g.size) with _ | _ <;>
      simp only [hdel, hsz, Bool.false_eq_true, if_false, if_true, Prod.mk.injEq,
        Option.some_inj]
    · constructor
      · rintro ⟨hcontr, _⟩
        exact absurd hcontr (by simp)
      · rintro ⟨rfl, _, hsz'⟩
        rw [hsz'] at hsz
        simp at hsz
    · constructor
      · rintro ⟨_, rfl⟩
        exact ⟨rfl, hdel, by simpa using hsz⟩
      · rintro ⟨rfl, _, _⟩
        exact ⟨trivial, rfl⟩
    · constructor
      · rintro ⟨hcontr, _⟩
        exact absurd hcontr (by simp)
      · rintro ⟨rfl, hdel', _⟩
        rw [hdel] at hdel'
        simp at hdel'
    · constructor
      · rintro ⟨hcontr, _⟩
        exact absurd hcontr (by simp)
      · rintro ⟨rfl, hdel', _⟩
        rw [hdel] at hdel'
        simp at hdel'

theorem checkIf_deleted_iff (st : Store) (g : CandidateGame) (r : GameRec) :
    checkIfGameExistsInDatabase st g = (GameExistance.EXISTS_BUT_DELETED, some r) ↔
      findByPath st g.file_path = some r ∧ r.deleted = true := by
  rw [checkIfGameExistsInDatabase]
  rcases hf : findByPath st g.file_path with _ | r'
  · simp
  · rcases hdel : r'.deleted with _ | _ <;> rcases hsz : (r'.size == g.size) with _ | _ <;>
      simp only [hdel, hsz, Bool.false_eq_true, if_false, if_true, Prod.mk.injEq,
        Option.some_inj]
    · constructor
      · rintro ⟨hcontr, _⟩
        exact absurd hcontr (by simp)
      · rintro ⟨rfl, hdel'⟩
        rw [hdel] at hdel'
        simp at hdel'
    · constructor
      · rintro ⟨hcontr, _⟩
        exact absurd hcontr (by simp)
      · rintro ⟨rfl, hdel'⟩
        rw [hdel] at hdel'
        simp at hdel'
    · constructor
      · rintro ⟨_, rfl⟩
        exact ⟨rfl, hdel⟩
      · rintro ⟨rfl, _⟩
        exact ⟨trivial, rfl⟩
    · constructor
      · rintro ⟨_, rfl⟩
        exact ⟨rfl, hdel⟩
      · rintro ⟨rfl, _⟩
        exact ⟨trivial, rfl⟩

theorem checkIf_altered_iff (st : Store) (g : CandidateGame) (r : GameRec) :
    checkIfGameExistsInDatabase st g = (GameExistance.EXISTS_BUT_ALTERED, some r) ↔
      findByPath st g.file_path = some r ∧ r.deleted = false ∧ r.size ≠ g.size := by
  rw [checkIfGameExistsInDatabase]
  rcases hf : findByPath st g.file_path with _ | r'
  · simp
  · rcases hdel : r'.deleted with _ | _ <;> rcases hsz : (r'.size == g.size) with _ | _ <;>
      simp only [hdel, hsz, Bool.false_eq_true, if_false, if_true, Prod.mk.injEq,
        Option.some_inj]
    · constructor
      · rintro ⟨_, rfl⟩
        exact ⟨rfl, hdel, by simpa using hsz⟩
      · rintro ⟨rfl, _, _⟩
        exact ⟨trivial, rfl⟩
    · constructor
      · rintro ⟨hcontr, _⟩
        exact absurd hcontr (by simp)
      · rintro ⟨rfl, _, hsz'⟩
        exact absurd (by simpa using hsz) hsz'
    · constructor
      · rintro ⟨hcontr, _⟩
        exact absurd hcontr (by simp)
      · rintro ⟨rfl, hdel', _⟩
        rw [hdel] at hdel'
        simp at hdel'
    · constructor
      · rintro ⟨hcontr, _⟩
        exact absurd hcontr (by simp)
      · rintro ⟨rfl, hdel', _⟩
        rw [hdel] at hdel'
        simp at hdel'

/-! ## One loop iteration, by verdict -/

theorem indexOne_parse_error (st : Store) (f : FileDesc) (e : ParseError)
    (hp : parseGame f.name f.size = Except.error e) :
    indexOne st f = (st, []) := by
  rw [indexOne, hp]

theorem indexOne_exists (st : Store) (f : FileDesc) (g : CandidateGame) (r : GameRec)
    (hp : parseGame f.name f.size = Except.ok g)
    (hc : checkIfGameExistsInDatabase st g = (GameExistance.EXISTS, some r)) :
    indexOne st f = (st, []) := by
  rw [indexOne, hp]
  dsimp only
  rw [hc]

theorem indexOne_new (st : Store) (f : FileDesc) (g : CandidateGame)
    (hp : parseGame f.name f.size = Except.ok g)
    (hc : checkIfGameExistsInDatabase st g = (GameExistance.DOES_NOT_EXIST, none)) :
    indexOne st f = (insertGame st g, [Mutation.create (mkRec (nextId st) g)]) := by
  rw [indexOne, hp]
  dsimp only
  rw [hc]

theorem indexOne_deleted (st : Store) (f : FileDesc) (g : CandidateGame) (r : GameRec)
    (hp : parseGame f.name f.size = Except.ok g)
    (hc : checkIfGameExistsInDatabase st g = (GameExistance.EXISTS_BUT_DELETED, some r)) :
    indexOne st f =
      (saveUpdated (restoreGame st r.id) (mergeUpdate (setActive r) g),
        [Mutation.restore r.id, Mutation.update (mergeUpdate (setActive r) g)]) := by
  rw [indexOne, hp]
  dsimp only
  rw [hc]

theorem indexOne_altered (st : Store) (f : FileDesc) (g : CandidateGame) (r : GameRec)
    (hp : parseGame f.name f.size = Except.ok g)
    (hc : checkIfGameExistsInDatabase st g = (GameExistance.EXISTS_BUT_ALTERED, some r)) :
    indexOne st f = (saveUpdated st (mergeUpdate r g), [Mutation.update (mergeUpdate r g)]) := by
  rw [indexOne, hp]
  dsimp only
  rw [hc]

/-! ## Well-formedness and lookup preservation across one iteration -/

theorem WF_insert (st : Store) (g : CandidateGame)
    (hf : findByPath st g.file_path = none) (hwf : WF st) :
    WF (insertGame st g) := by
  obtain ⟨hids, hpaths⟩ := hwf
  constructor
  · rw [insertGame, List.map_append, List.nodup_append]
    refine ⟨hids, by simp, ?_⟩
    intro a ha hb
    simp only [List.map_cons, List.map_nil, List.mem_singleton] at hb
    rcases List.mem_map.mp ha with ⟨x, hx, hxa⟩
    have hlt := id_lt_nextId st x hx
    rw [← hxa] at hb
    rw [hb] at hlt
    simp [mkRec] at hlt
  · rw [insertGame, List.map_append, List.nodup_append]
    refine ⟨hpaths, by simp, ?_⟩
    intro a ha hb
    simp only [List.map_cons, List.map_nil, List.mem_singleton] at hb
    rcases List.mem_map.mp ha with ⟨x, hx, hxa⟩
    have hne := (findByPath_eq_none_iff st g.file_path).mp hf x hx
    rw [← hxa] at hb
    exact hne (by simpa [mkRec] using hb)

theorem WF_map_replace (st : Store) (r m : GameRec) (hr : r ∈ st) (hwf : WF st)
    (hid : m.id = r.id) (hpath : m.file_path = r.file_path) :
    WF (st.map (fun x => if x.id == r.id then m else x)) := by
  obtain ⟨hids, hpaths⟩ := hwf
  constructor
  · have heq : (st.map (fun x => if x.id == r.id then m else x)).map (fun x => x.id)
        = st.map (fun x => x.id) := by
      rw [List.map_map]
      apply List.map_congr_left
      intro x _
      by_cases h : x.id = r.id
      · simp [Function.comp, h, hid]
      · simp [Function.comp, h]
    rw [heq]
    exact hids
  · have heq : (st.map (fun x => if x.id == r.id then m else x)).map (fun x => x.file_path)
        = st.map (fun x => x.file_path) := by
      rw [List.map_map]
      apply List.map_congr_left
      intro x hx
      by_cases h : x.id = r.id
      · have hxr : x = r := List.inj_on_of_nodup_map hids hx hr h
        subst hxr
        simp [Function.comp, h, hpath]
      · simp [Function.comp, h]
    rw [heq]
    exact hpaths

theorem findByPath_map_replace (st : Store) (r m : GameRec) (p : Str) (hr : r ∈ st)
    (hids : (st.map (fun x => x.id)).Nodup)
    (hpath : m.file_path = r.file_path) :
    findByPath (st.map (fun x => if x.id == r.id then m else x)) p =
      (findByPath st p).map (fun x => if x.id == r.id then m else x) := by
  apply find?_map_of_status
  intro x hx
  by_cases h : x.id = r.id
  · have hxr : x = r := List.inj_on_of_nodup_map hids hx hr h
    subst hxr
    simp [h, hpath]
  · simp [h]

/-- The master lemma for one loop iteration: processing one descriptor
keeps the store well-formed, leaves the rows of every other path alone,
and leaves an active row of matching path and size behind whenever the
descriptor parses. -/
theorem indexOne_master (st : Store) (f : FileDesc) (hwf : WF st) :
    WF (indexOne st f).1 ∧
      (∀ q, q ≠ f.name → findByPath (indexOne st f).1 q = findByPath st q) ∧
      (∀ g, parseGame f.name f.size = Except.ok g →
        ∃ r', findByPath (indexOne st f).1 f.name = some r' ∧ r'.deleted = false ∧
          r'.size = f.size) := by
  rcases hp : parseGame f.name f.size with e | g
  · rw [indexOne_parse_error st f e hp]
    refine ⟨hwf, fun q _ => rfl, ?_⟩
    intro g hok
    exact absurd hok (by simp)
  · obtain ⟨hpathg, hsizeg, _⟩ := parseGame_ok_fields _ _ _ hp
    rcases hf : findByPath st g.file_path with _ | r
    · -- NEW
      have hc := (checkIf_not_exist_iff st g).mpr hf
      rw [indexOne_new st f g hp hc]
      refine ⟨WF_insert st g hf hwf, ?_, ?_⟩
      · intro q hq
        apply findByPath_insert_of_ne
        show (mkRec (nextId st) g).file_path ≠ q
        simp only [mkRec]
        rw [hpathg]
        exact fun h => hq h.symm
      · intro g' hok
        refine ⟨mkRec (nextId st) g, ?_, rfl, ?_⟩
        · have := findByPath_insert_of_none st (mkRec (nextId st) g) (by simpa [mkRec] using hf)
          rw [show (mkRec (nextId st) g).file_path = f.name from by simp [mkRec, hpathg]] at this
          exact this
        · simp [mkRec, hsizeg]
    · have hrpath : r.file_path = g.file_path := findByPath_some_path st g.file_path r hf
      have hrmem : r ∈ st := findByPath_some_mem st g.file_path r hf
      rcases hdel : r.deleted with _ | _
      · rcases hsz : (r.size == g.size) with _ | _
        · -- ALTERED
          have hc := (checkIf_altered_iff st g r).mpr ⟨hf, hdel, by simpa using hsz⟩
          rw [indexOne_altered st f g r hp hc]
          have hmapeq : saveUpdated st (mergeUpdate r g) =
              st.map (fun x => if x.id == r.id then mergeUpdate r g else x) := rfl
          rw [hmapeq]
          have hmpath : (mergeUpdate r g).file_path = r.file_path := by
            simp [mergeUpdate, hrpath]
          refine ⟨WF_map_replace st r (mergeUpdate r g) hrmem hwf rfl hmpath, ?_, ?_⟩
          · intro q hq
            rw [findByPath_map_replace st r (mergeUpdate r g) q hrmem hwf.1 hmpath]
            rcases hq' : findByPath st q with _ | x
            · rfl
            · have hxpath : x.file_path = q := findByPath_some_path st q x hq'
              have hxmem : x ∈ st := findByPath_some_mem st q x hq'
              have hxne : ¬ x.id = r.id := by
                intro hcontr
                have hxr : x = r := List.inj_on_of_nodup_map hwf.1 hxmem hrmem hcontr
                subst hxr
                rw [hxpath] at hrpath
                rw [← hrpath] at hpathg
                exact hq hpathg
              simp [hxne]
          · intro g' hok
            refine ⟨mergeUpdate r g, ?_, by simp [mergeUpdate, hdel], by simp [mergeUpdate, hsizeg]⟩
            rw [← hpathg]
            rw [findByPath_map_replace st r (mergeUpdate r g) g.file_path hrmem hwf.1 hmpath]
            rw [hf]
            simp
        · -- EXISTS
          have hc := (checkIf_exists_iff st g r).mpr ⟨hf, hdel, by simpa using hsz⟩
          rw [indexOne_exists st f g r hp hc]
          refine ⟨hwf, fun q _ => rfl, ?_⟩
          intro g' hok
          refine ⟨r, ?_, hdel, ?_⟩
          · rw [← hpathg]
            exact hf
          · rw [← hsizeg]
            simpa using hsz
      · -- RESTORABLE
        have hc := (checkIf_deleted_iff st g r).mpr ⟨hf, hdel⟩
        rw [indexOne_deleted st f g r hp hc]
        have hmapeq := saveUpdated_restore_eq_map st r.id (mergeUpdate (setActive r) g) rfl
        rw [hmapeq]
        have hmpath : (mergeUpdate (setActive r) g).file_path = r.file_path := by
          simp [mergeUpdate, setActive, hrpath]
        refine ⟨WF_map_replace st r (mergeUpdate (setActive r) g) hrmem hwf rfl hmpath, ?_, ?_⟩
        · intro q hq
          rw [findByPath_map_replace st r (mergeUpdate (setActive r) g) q hrmem hwf.1 hmpath]
          rcases hq' : findByPath st q with _ | x
          · rfl
          · have hxpath : x.file_path = q := findByPath_some_path st q x hq'
            have hxmem : x ∈ st := findByPath_some_mem st q x hq'
            have hxne : ¬ x.id = r.id := by
              intro hcontr
              have hxr : x = r := List.inj_on_of_nodup_map hwf.1 hxmem hrmem hcontr
              subst hxr
              rw [hxpath] at hrpath
              rw [← hrpath] at hpathg
              exact hq hpathg
            simp [hxne]
        · intro g' hok
          refine ⟨mergeUpdate (setActive r) g, ?_, by simp [mergeUpdate, setActive],
            by simp [mergeUpdate, hsizeg]⟩
          rw [← hpathg]
          rw [findByPath_map_replace st r (mergeUpdate (setActive r) g) g.file_path hrmem hwf.1 hmpath]
          rw [hf]
          simp

/-! ## The scan as a whole -/

theorem indexFiles_nil (st : Store) : indexFiles [] st = (st, []) := rfl

theorem indexFiles_cons (f : FileDesc) (fs : List FileDesc) (st : Store) :
    indexFiles (f :: fs) st =
      ((indexFiles fs (indexOne st f).1).1,
        (indexOne st f).2 ++ (indexFiles fs (indexOne st f).1).2) := rfl

/-- A whole scan keeps the store well-formed, leaves paths outside the
listing untouched, and leaves an active row of matching path and size
for every descriptor that parses (provided names are distinct, as a
file-system listing's are). -/
theorem indexFiles_master (fs : List FileDesc) :
    ∀ st : Store, WF st → (fs.map (fun f => f.name)).Nodup →
      WF (indexFiles fs st).1 ∧
        (∀ q, (∀ f ∈ fs, f.name ≠ q) →
          findByPath (indexFiles fs st).1 q = findByPath st q) ∧
        (∀ f ∈ fs, ∀ g, parseGame f.name f.size = Except.ok g →
          ∃ r', findByPath (indexFiles fs st).1 f.name = some r' ∧
            r'.deleted = false ∧ r'.size = f.size) := by
  induction fs with
  | nil =>
    intro st hwf _
    rw [indexFiles_nil]
    exact ⟨hwf, fun q _ => rfl, by simp⟩
  | cons f fs ih =>
    intro st hwf hnd
    rw [List.map_cons, List.nodup_cons] at hnd
    obtain ⟨hhead, htail⟩ := hnd
    obtain ⟨hwf1, hpres1, hgood1⟩ := indexOne_master st f hwf
    obtain ⟨hwf2, hpres2, hgood2⟩ := ih (indexOne st f).1 hwf1 htail
    rw [indexFiles_cons]
    refine ⟨hwf2, ?_, ?_⟩
    · intro q hq
      have h2 := hpres2 q fun f' hf' => hq f' (List.mem_cons_of_mem f hf')
      have h1 := hpres1 q (fun hcontr => hq f (List.mem_cons_self f fs) (by rw [hcontr]))
      rw [h2, h1]
    · intro f0 hf0 g hok
      rcases List.mem_cons.mp hf0 with rfl | hf0'
      · obtain ⟨r', hfind, hdel, hsz⟩ := hgood1 g hok
        have hpres : findByPath (indexFiles fs (indexOne st f0).1).1 f0.name
            = findByPath (indexOne st f0).1 f0.name := by
          apply hpres2
          intro f' hf' hcontr
          exact hhead (by rw [← hcontr]; exact List.mem_map.mpr ⟨f', hf', rfl⟩)
        exact ⟨r', by rw [hpres]; exact hfind, hdel, hsz⟩
      · exact hgood2 f0 hf0' g hok

theorem indexFiles_noop (fs : List FileDesc) (st : Store)
    (h : ∀ f ∈ fs, indexOne st f = (st, [])) : indexFiles fs st = (st, []) := by
  induction fs with
  | nil => rfl
  | cons f fs ih =>
    rw [indexFiles_cons, h f (List.mem_cons_self f fs)]
    have ih' := ih fun f' hf' => h f' (List.mem_cons_of_mem f hf')
    rw [ih']
    rfl

theorem indexOne_noop_of_good (st : Store) (f : FileDesc)
    (hgood : ∀ g, parseGame f.name f.size = Except.ok g →
      ∃ r', findByPath st f.name = some r' ∧ r'.deleted = false ∧ r'.size = f.size) :
    indexOne st f = (st, []) := by
  rcases hp : parseGame f.name f.size with e | g
  · exact indexOne_parse_error st f e hp
  · obtain ⟨r', hfind, hdel, hsz⟩ := hgood g hp
    obtain ⟨hpathg, hsizeg, _⟩ := parseGame_ok_fields _ _ _ hp
    apply indexOne_exists st f g r' hp
    apply (checkIf_exists_iff st g r').mpr
    refine ⟨?_, hdel, ?_⟩
    · rw [hpathg]
      exact hfind
    · rw [hsz, hsizeg]

/-! ## Failure isolation -/

theorem indexFilesWithFailures_cons_fail (F : Str → Bool) (f : FileDesc)
    (fs : List FileDesc) (st : Store) (h : F f.name = true) :
    indexFilesWithFailures F (f :: fs) st = indexFilesWithFailures F fs st := by
  rw [indexFilesWithFailures, h]
  simp

theorem indexFilesWithFailures_cons_ok (F : Str → Bool) (f : FileDesc)
    (fs : List FileDesc) (st : Store) (h : F f.name = false) :
    indexFilesWithFailures F (f :: fs) st =
      ((indexFilesWithFailures F fs (indexOne st f).1).1,
        (indexOne st f).2 ++ (indexFilesWithFailures F fs (indexOne st f).1).2) := by
  rw [indexFilesWithFailures, h]
  simp

theorem indexFilesWithFailures_all_ok (F : Str → Bool) (fs : List FileDesc)
    (h : ∀ f ∈ fs, F f.name = false) :
    ∀ st : Store, indexFilesWithFailures F fs st = indexFiles fs st := by
  induction fs with
  | nil => intro st; rfl
  | cons f fs ih =>
    intro st
    rw [indexFilesWithFailures_cons_ok F f fs st (h f (List.mem_cons_self f fs))]
    rw [indexFiles_cons]
    rw [ih fun f' hf' => h f' (List.mem_cons_of_mem f hf')]

/-! ## The integrity check as a pointwise map -/

theorem deleteGameRec_eq_map (st : Store) (i : Nat) :
    deleteGameRec st i = st.map (fun x => if x.id == i then setDeleted x else x) := rfl

theorem setDeleted_setDeleted (x : GameRec) : setDeleted (setDeleted x) = setDeleted x := rfl

theorem setDeleted_id (x : GameRec) : (setDeleted x).id = x.id := rfl

theorem integrityCheck_eq_map (fs : List FileDesc) :
    ∀ (db : List GameRec) (st : Store),
      integrityCheck fs db st =
        st.map (fun x =>
          if (db.filter (fun g => !(fs.any (fun f2 => f2.name == g.file_path)))).any
              (fun g => g.id == x.id)
          then setDeleted x else x) := by
  intro db
  induction db with
  | nil =>
    intro st
    rw [integrityCheck]
    simp
  | cons g db ih =>
    intro st
    rw [integrityCheck]
    rcases hm : fs.any (fun f => f.name == g.file_path) with _ | _
    · simp only [Bool.false_eq_true, if_false]
      rw [ih (deleteGameRec st g.id), deleteGameRec_eq_map, List.map_map]
      rw [List.filter_cons_of_pos (by simp [hm])]
      apply List.map_congr_left
      intro x _
      simp only [Function.comp]
      by_cases hid : x.id = g.id
      · simp only [hid, beq_self_eq_true, if_true]
        rw [setDeleted_id]
        simp only [hid, beq_self_eq_true, List.any_cons, Bool.true_or, if_true]
        rcases hany : (List.filter (fun g => !fs.any fun f2 => f2.name == g.file_path) db).any
            (fun g' => g'.id == g.id) with _ | _
        · simp [hany, setDeleted_setDeleted]
        · simp [hany, setDeleted_setDeleted]
      · have hbeq : (x.id == g.id) = false := by simpa using hid
        simp only [hbeq, Bool.false_eq_true, if_false, List.any_cons]
        have hbeq' : (g.id == x.id) = false := by
          simpa using fun hcontr => hid hcontr.symm
        simp [hbeq']
    · simp only [if_true]
      rw [ih st]
      rw [List.filter_cons_of_neg (by simp [hm])]

/-! ## Active-row counting -/

theorem countP_map_of_status (p : GameRec → Bool) (φ : GameRec → GameRec)
    (l : List GameRec) (h : ∀ x ∈ l, p (φ x) = p x) :
    List.countP p (l.map φ) = List.countP p l := by
  induction l with
  | nil => rfl
  | cons a t ih =>
    rw [List.map_cons, List.countP_cons, List.countP_cons]
    rw [h a (List.mem_cons_self a t)]
    rw [ih fun x hx => h x (List.mem_cons_of_mem a hx)]

/-! ## Claim C1 -/

/-- C1: for every descriptor processed by `indexFiles`, the mutation
applied is determined by the existence verdict — `DOES_NOT_EXIST`
creates (appends) a fresh active row; `EXISTS` performs no store
mutation; `EXISTS_BUT_DELETED` issues a restore of the matched row first
and then an update overwriting the mutable fields from the candidate;
`EXISTS_BUT_ALTERED` issues a single in-place update overwriting the
mutable fields, and the row stays active. -/
theorem c1_verdict_determines_mutation (st : Store) (f : FileDesc) (g : CandidateGame)
    (hp : parseGame f.name f.size = Except.ok g) :
    (checkIfGameExistsInDatabase st g = (GameExistance.DOES_NOT_EXIST, none) →
      indexOne st f =
        (st ++ [mkRec (nextId st) g], [Mutation.create (mkRec (nextId st) g)]) ∧
      (mkRec (nextId st) g).deleted = false) ∧
    (∀ r, checkIfGameExistsInDatabase st g = (GameExistance.EXISTS, some r) →
      indexOne st f = (st, [])) ∧
    (∀ r, checkIfGameExistsInDatabase st g = (GameExistance.EXISTS_BUT_DELETED, some r) →
      indexOne st f =
        (st.map (fun x => if x.id == r.id then mergeUpdate (setActive r) g else x),
          [Mutation.restore r.id, Mutation.update (mergeUpdate (setActive r) g)]) ∧
      (mergeUpdate (setActive r) g).deleted = false ∧
      (mergeUpdate (setActive r) g).file_path = g.file_path ∧
      (mergeUpdate (setActive r) g).title = g.title ∧
      (mergeUpdate (setActive r) g).release_date = g.release_date ∧
      (mergeUpdate (setActive r) g).size = g.size ∧
      (mergeUpdate (setActive r) g).version = g.version ∧
      (mergeUpdate (setActive r) g).early_access = g.early_access) ∧
    (∀ r, checkIfGameExistsInDatabase st g = (GameExistance.EXISTS_BUT_ALTERED, some r) →
      indexOne st f =
        (st.map (fun x => if x.id == r.id then mergeUpdate r g else x),
          [Mutation.update (mergeUpdate r g)]) ∧
      (mergeUpdate r g).deleted = false ∧
      (mergeUpdate r g).file_path = g.file_path ∧
      (mergeUpdate r g).title = g.title ∧
      (mergeUpdate r g).release_date = g.release_date ∧
      (mergeUpdate r g).size = g.size ∧
      (mergeUpdate r g).version = g.version ∧
      (mergeUpdate r g).early_access = g.early_access) := by
  refine ⟨?_, ?_, ?_, ?_⟩
  · intro hc
    exact ⟨indexOne_new st f g hp hc, rfl⟩
  · intro r hc
    exact indexOne_exists st f g r hp hc
  · intro r hc
    refine ⟨?_, rfl, rfl, rfl, rfl, rfl, rfl, rfl⟩
    rw [indexOne_deleted st f g r hp hc]
    rw [saveUpdated_restore_eq_map st r.id (mergeUpdate (setActive r) g) rfl]
  · intro r hc
    have hdel : r.deleted = false := ((checkIf_altered_iff st g r).mp hc).2.1
    refine ⟨?_, ?_, rfl, rfl, rfl, rfl, rfl, rfl⟩
    · rw [indexOne_altered st f g r hp hc]
      rfl
    · show r.deleted = false
      exact hdel

/-- Witness data: a small concrete store with one active and one
soft-deleted row, the latter carrying external metadata. -/
def wRow1 : GameRec :=
  mkRec 1
    { file_path := ("Portal (2007).zip".toList)
      title := ("Portal".toList)
      size := 10
      release_date := { year := 2007, month := 1, day := 1 }
      version := none
      early_access := false }

/-- Witness data: a soft-deleted row with populated external fields. -/
def wRow2 : GameRec :=
  { id := 2
    file_path := ("Doom (1993).zip".toList)
    title := ("Doom".toList)
    size := 5
    release_date := { year := 1993, month := 1, day := 1 }
    version := none
    early_access := false
    deleted := true
    rawg_id := some 42
    rawg_title := some ("DOOM".toList)
    rawg_release_date := some { year := 1993, month := 12, day := 10 }
    cache_date := none
    description := some ("classic shooter".toList)
    box_image := some 7
    background_image := some 8
    website_url := none
    metacritic_rating := some 90
    average_playtime := some 180
    progresses := [3]
    publishers := [4]
    developers := [5]
    stores := []
    tags := [6]
    genres := [9] }

/-- Witness data: the two-row store. -/
def wStore : Store := [wRow1, wRow2]

/-- Witness data: the descriptor that re-introduces the soft-deleted
row's path with a different size. -/
def wDesc : FileDesc := { name := ("Doom (1993).zip".toList), size := 7 }

/-- Witness data: the candidate `wDesc` parses to. -/
def wCand : CandidateGame :=
  { file_path := ("Doom (1993).zip".toList)
    title := ("Doom".toList)
    size := 7
    release_date := { year := 1993, month := 1, day := 1 }
    version := none
    early_access := false }

theorem c1_witness :
    indexOne wStore wDesc =
      (wStore.map (fun x => if x.id == wRow2.id then mergeUpdate (setActive wRow2) wCand else x),
        [Mutation.restore wRow2.id, Mutation.update (mergeUpdate (setActive wRow2) wCand)]) ∧
      (mergeUpdate (setActive wRow2) wCand).deleted = false ∧
      (mergeUpdate (setActive wRow2) wCand).file_path = wCand.file_path ∧
      (mergeUpdate (setActive wRow2) wCand).title = wCand.title ∧
      (mergeUpdate (setActive wRow2) wCand).release_date = wCand.release_date ∧
      (mergeUpdate (setActive wRow2) wCand).size = wCand.size ∧
      (mergeUpdate (setActive wRow2) wCand).version = wCand.version ∧
      (mergeUpdate (setActive wRow2) wCand).early_access = wCand.early_access :=
  (c1_verdict_determines_mutation wStore wDesc wCand (by decide)).2.2.1 wRow2 (by decide)

/-! ## Claim C3 -/

/-- C3: `indexFiles` is idempotent — rerunning it on the store produced
by a first run over the same listing (names distinct, as in a filesystem
listing) performs zero store mutations and leaves the store unchanged. -/
theorem c3_indexFiles_idempotent (fs : List FileDesc) (st : Store)
    (hwf : WF st) (hnd : (fs.map (fun f => f.name)).Nodup) :
    indexFiles fs (indexFiles fs st).1 = ((indexFiles fs st).1, []) := by
  obtain ⟨_, _, hgood⟩ := indexFiles_master fs st hwf hnd
  apply indexFiles_noop
  intro f hf
  apply indexOne_noop_of_good
  intro g hok
  exact hgood f hf g hok

/-- Witness data: a two-file listing with distinct names. -/
def wListing : List FileDesc :=
  [ { name := ("Portal (2007).zip".toList), size := 10 }, wDesc ]

theorem c3_witness :
    indexFiles wListing (indexFiles wListing []).1 = ((indexFiles wListing []).1, []) :=
  c3_indexFiles_idempotent wListing [] (by decide) (by decide)

/-! ## Claim C5 -/

theorem indexFiles_skip_parse_error (f : FileDesc) (e : ParseError)
    (hp : parseGame f.name f.size = Except.error e) :
    ∀ (pre post : List FileDesc) (st : Store),
      indexFiles (pre ++ f :: post) st = indexFiles (pre ++ post) st := by
  intro pre
  induction pre with
  | nil =>
    intro post st
    rw [List.nil_append, List.nil_append, indexFiles_cons,
      indexOne_parse_error st f e hp]
    simp
  | cons d pre ih =>
    intro post st
    rw [List.cons_append, List.cons_append, indexFiles_cons, indexFiles_cons]
    rw [ih post (indexOne st d).1]

/-- C5: the parse step is total — on any string without a parenthesized
group of exactly four digits it produces the `ParseError` value instead
of crashing, and `indexFiles` skips such a descriptor, the rest of the
scan proceeding exactly as if it were absent. -/
theorem c5_parse_total_no_year (s : Str) (n : Nat) (h : ¬ hasYearGroup s) :
    parseGame s n = Except.error ParseError.noReleaseYear ∧
      ∀ (pre post : List FileDesc) (st : Store),
        indexFiles (pre ++ { name := s, size := n } :: post) st
          = indexFiles (pre ++ post) st := by
  have hnone := regexExtractReleaseYear_eq_none_of_not_hasYearGroup s h
  refine ⟨parseGame_error_of_none s n hnone, ?_⟩
  exact indexFiles_skip_parse_error { name := s, size := n } ParseError.noReleaseYear
    (parseGame_error_of_none s n hnone)

theorem c5_witness :
    parseGame ("Portal.zip".toList) 7 = Except.error ParseError.noReleaseYear ∧
      indexFiles ([] ++ { name := ("Portal.zip".toList), size := 7 } :: [wDesc]) wStore
        = indexFiles ([] ++ [wDesc]) wStore := by
  have h := c5_parse_total_no_year ("Portal.zip".toList) 7 (by
    intro hy
    have hscan := (hasYearGroup_iff_scan _).mp hy
    rw [show regexExtractReleaseYear ("Portal.zip".toList) = none from by decide] at hscan
    simp at hscan)
  exact ⟨h.1, h.2 [] [wDesc] wStore⟩

/-! ## Claim C4 -/

/-- C4: failures are isolated per file and the scan always returns.  If
one descriptor fails — because it does not parse, or because its store
operation throws (`F` names the store-failing paths) — while every other
descriptor's store operations succeed, the whole run equals the run on
the listing with the failing descriptor absent: the other descriptors
receive exactly the same verdicts and mutations. -/
theorem c4_failure_isolation (pre post : List FileDesc) (f : FileDesc)
    (F : Str → Bool) (st : Store)
    (hfail : (∃ e, parseGame f.name f.size = Except.error e) ∨ F f.name = true)
    (hok : ∀ d ∈ pre ++ post, F d.name = false) :
    indexFilesWithFailures F (pre ++ f :: post) st = indexFiles (pre ++ post) st := by
  revert hok
  induction pre generalizing st with
  | nil =>
    intro hok
    rw [List.nil_append] at hok
    rw [List.nil_append, List.nil_append]
    rcases hfail with ⟨e, hparse⟩ | hF
    · rcases hFf : F f.name with _ | _
      · rw [indexFilesWithFailures_cons_ok F f post st hFf]
        rw [indexOne_parse_error st f e hparse]
        rw [indexFilesWithFailures_all_ok F post hok]
        simp
      · rw [indexFilesWithFailures_cons_fail F f post st hFf]
        exact indexFilesWithFailures_all_ok F post hok st
    · rw [indexFilesWithFailures_cons_fail F f post st hF]
      exact indexFilesWithFailures_all_ok F post hok st
  | cons d pre ih =>
    intro hok
    have hd : F d.name = false := hok d (by simp)
    rw [List.cons_append, List.cons_append]
    rw [indexFilesWithFailures_cons_ok F d (pre ++ f :: post) st hd]
    rw [indexFiles_cons]
    have hok' : ∀ d' ∈ pre ++ post, F d'.name = false := by
      intro d' hd'
      apply hok
      rw [List.cons_append]
      exact List.mem_cons_of_mem d hd'
    rw [ih (indexOne st d).1 hok']

theorem c4_witness :
    indexFilesWithFailures (fun _ => false)
        ([ { name := ("Portal (2007).zip".toList), size := 10 } ] ++
          { name := ("Portal.zip".toList), size := 7 } :: [wDesc]) wStore
      = indexFiles ([ { name := ("Portal (2007).zip".toList), size := 10 } ] ++ [wDesc])
          wStore :=
  c4_failure_isolation
    [ { name := ("Portal (2007).zip".toList), size := 10 } ] [wDesc]
    { name := ("Portal.zip".toList), size := 7 } (fun _ => false) wStore
    (Or.inl ⟨ParseError.noReleaseYear, by decide⟩) (by
      intro d _
      rfl)

/-! ## Claim C2 -/

/-- C2: on the active rows of a well-formed store, `integrityCheck`
soft-deletes exactly the active rows whose `file_path` matches no
descriptor name in the listing, leaves matched active rows (and already
soft-deleted rows) unmodified, and never removes a row: the result is a
pointwise map of the store and the total row count is unchanged, so it
never decreases across any scan. -/
theorem c2_integrityCheck_characterisation (fs : List FileDesc) (st : Store)
    (hwf : WF st) :
    integrityCheck fs (activeRows st) st =
      st.map (fun x =>
        if x.deleted = false ∧ ∀ f ∈ fs, ¬ f.name = x.file_path
        then setDeleted x else x) ∧
      (integrityCheck fs (activeRows st) st).length = st.length := by
  have hchar : ∀ x ∈ st,
      (((activeRows st).filter
          (fun g => !(fs.any (fun f2 => f2.name == g.file_path)))).any
        (fun g => g.id == x.id)) = true ↔
        (x.deleted = false ∧ ∀ f ∈ fs, ¬ f.name = x.file_path) := by
    intro x hx
    constructor
    · intro hany
      obtain ⟨g, hgmem, hgid⟩ := List.any_eq_true.mp hany
      obtain ⟨hgactive, hgmatch⟩ := List.mem_filter.mp hgmem
      obtain ⟨hgst, hgdel⟩ := List.mem_filter.mp hgactive
      have hgx : g = x := List.inj_on_of_nodup_map hwf.1 hgst hx (by simpa using hgid)
      subst hgx
      refine ⟨by simpa using hgdel, ?_⟩
      intro f hf hcontr
      have hfa : (fs.any (fun f2 => f2.name == g.file_path)) = false := by
        simpa using hgmatch
      have := List.any_eq_false.mp hfa f hf
      rw [hcontr] at this
      simp at this
    · rintro ⟨hdel, hmatch⟩
      apply List.any_eq_true.mpr
      refine ⟨x, ?_, by simp⟩
      apply List.mem_filter.mpr
      refine ⟨List.mem_filter.mpr ⟨hx, by simp [hdel]⟩, ?_⟩
      simp only [Bool.not_eq_eq_eq_not, Bool.not_true]
      apply List.any_eq_false.mpr
      intro f hf
      simpa using hmatch f hf
  constructor
  · rw [integrityCheck_eq_map fs (activeRows st) st]
    apply List.map_congr_left
    intro x hx
    by_cases hcond : x.deleted = false ∧ ∀ f ∈ fs, ¬ f.name = x.file_path
    · rw [if_pos ((hchar x hx).mpr hcond), if_pos hcond]
    · rw [if_neg (fun h => hcond ((hchar x hx).mp h)), if_neg hcond]
  · rw [integrityCheck_eq_map fs (activeRows st) st]
    exact List.length_map st _

/-- Witness data: a one-file listing naming only the active row's path. -/
def wFsOne : List FileDesc := [ { name := ("Portal (2007).zip".toList), size := 10 } ]

theorem c2_witness :
    integrityCheck wFsOne (activeRows wStore) wStore =
      wStore.map (fun x =>
        if x.deleted = false ∧ ∀ f ∈ wFsOne, ¬ f.name = x.file_path
        then setDeleted x else x) ∧
      (integrityCheck wFsOne (activeRows wStore) wStore).length = wStore.length :=
  c2_integrityCheck_characterisation wFsOne wStore (by decide)

/-! ## Claim C8 -/

/-- C8: the update applied on a `RESTORABLE` or `ALTERED` verdict
overwrites only the six candidate fields and (on restore) clears the
soft-delete marker; `id` and every external-metadata column and
relation of the existing row are unchanged; no row is added or removed,
and on alteration the active row count is unchanged. -/
theorem c8_update_frame (st : Store) (g : CandidateGame) (r : GameRec) (hwf : WF st) :
    (checkIfGameExistsInDatabase st g = (GameExistance.EXISTS_BUT_DELETED, some r) →
      (mergeUpdate (setActive r) g).id = r.id ∧
      (mergeUpdate (setActive r) g).rawg_id = r.rawg_id ∧
      (mergeUpdate (setActive r) g).rawg_title = r.rawg_title ∧
      (mergeUpdate (setActive r) g).rawg_release_date = r.rawg_release_date ∧
      (mergeUpdate (setActive r) g).cache_date = r.cache_date ∧
      (mergeUpdate (setActive r) g).description = r.description ∧
      (mergeUpdate (setActive r) g).box_image = r.box_image ∧
      (mergeUpdate (setActive r) g).background_image = r.background_image ∧
      (mergeUpdate (setActive r) g).website_url = r.website_url ∧
      (mergeUpdate (setActive r) g).metacritic_rating = r.metacritic_rating ∧
      (mergeUpdate (setActive r) g).average_playtime = r.average_playtime ∧
      (mergeUpdate (setActive r) g).progresses = r.progresses ∧
      (mergeUpdate (setActive r) g).publishers = r.publishers ∧
      (mergeUpdate (setActive r) g).developers = r.developers ∧
      (mergeUpdate (setActive r) g).stores = r.stores ∧
      (mergeUpdate (setActive r) g).tags = r.tags ∧
      (mergeUpdate (setActive r) g).genres = r.genres ∧
      (mergeUpdate (setActive r) g).file_path = g.file_path ∧
      (mergeUpdate (setActive r) g).title = g.title ∧
      (mergeUpdate (setActive r) g).release_date = g.release_date ∧
      (mergeUpdate (setActive r) g).size = g.size ∧
      (mergeUpdate (setActive r) g).version = g.version ∧
      (mergeUpdate (setActive r) g).early_access = g.early_access ∧
      (mergeUpdate (setActive r) g).deleted = false ∧
      (saveUpdated (restoreGame st r.id) (mergeUpdate (setActive r) g)).length
        = st.length) ∧
    (checkIfGameExistsInDatabase st g = (GameExistance.EXISTS_BUT_ALTERED, some r) →
      (mergeUpdate r g).id = r.id ∧
      (mergeUpdate r g).rawg_id = r.rawg_id ∧
      (mergeUpdate r g).rawg_title = r.rawg_title ∧
      (mergeUpdate r g).rawg_release_date = r.rawg_release_date ∧
      (mergeUpdate r g).cache_date = r.cache_date ∧
      (mergeUpdate r g).description = r.description ∧
      (mergeUpdate r g).box_image = r.box_image ∧
      (mergeUpdate r g).background_image = r.background_image ∧
      (mergeUpdate r g).website_url = r.website_url ∧
      (mergeUpdate r g).metacritic_rating = r.metacritic_rating ∧
      (mergeUpdate r g).average_playtime = r.average_playtime ∧
      (mergeUpdate r g).progresses = r.progresses ∧
      (mergeUpdate r g).publishers = r.publishers ∧
      (mergeUpdate r g).developers = r.developers ∧
      (mergeUpdate r g).stores = r.stores ∧
      (mergeUpdate r g).tags = r.tags ∧
      (mergeUpdate r g).genres = r.genres ∧
      (mergeUpdate r g).file_path = g.file_path ∧
      (mergeUpdate r g).title = g.title ∧
      (mergeUpdate r g).release_date = g.release_date ∧
      (mergeUpdate r g).size = g.size ∧
      (mergeUpdate r g).version = g.version ∧
      (mergeUpdate r g).early_access = g.early_access ∧
      (mergeUpdate r g).deleted = false ∧
      (saveUpdated st (mergeUpdate r g)).length = st.length ∧
      (activeRows (saveUpdated st (mergeUpdate r g))).length
        = (activeRows st).length) := by
  constructor
  · intro _
    refine ⟨rfl, rfl, rfl, rfl, rfl, rfl, rfl, rfl, rfl, rfl, rfl, rfl, rfl, rfl, rfl,
      rfl, rfl, rfl, rfl, rfl, rfl, rfl, rfl, rfl, ?_⟩
    simp [saveUpdated, restoreGame]
  · intro hc
    obtain ⟨hf, hdel, _⟩ := (checkIf_altered_iff st g r).mp hc
    have hrmem : r ∈ st := findByPath_some_mem st g.file_path r hf
    refine ⟨rfl, rfl, rfl, rfl, rfl, rfl, rfl, rfl, rfl, rfl, rfl, rfl, rfl, rfl, rfl,
      rfl, rfl, rfl, rfl, rfl, rfl, rfl, rfl, ?_, ?_, ?_⟩
    · show r.deleted = false
      exact hdel
    · simp [saveUpdated]
    · rw [activeRows, activeRows]
      rw [← List.countP_eq_length_filter, ← List.countP_eq_length_filter]
      rw [saveUpdated_eq_map]
      apply countP_map_of_status
      intro x hx
      by_cases hid : x.id = (mergeUpdate r g).id
      · have hid' : x.id = r.id := hid
        have hxr : x = r := List.inj_on_of_nodup_map hwf.1 hx hrmem hid'
        subst hxr
        simp [hid]
        rfl
      · simp [hid]

theorem c8_witness :
    (mergeUpdate (setActive wRow2) wCand).id = wRow2.id ∧
    (mergeUpdate (setActive wRow2) wCand).rawg_id = wRow2.rawg_id ∧
    (mergeUpdate (setActive wRow2) wCand).rawg_title = wRow2.rawg_title ∧
    (mergeUpdate (setActive wRow2) wCand).rawg_release_date = wRow2.rawg_release_date ∧
    (mergeUpdate (setActive wRow2) wCand).cache_date = wRow2.cache_date ∧
    (mergeUpdate (setActive wRow2) wCand).description = wRow2.description ∧
    (mergeUpdate (setActive wRow2) wCand).box_image = wRow2.box_image ∧
    (mergeUpdate (setActive wRow2) wCand).background_image = wRow2.background_image ∧
    (mergeUpdate (setActive wRow2) wCand).website_url = wRow2.website_url ∧
    (mergeUpdate (setActive wRow2) wCand).metacritic_rating = wRow2.metacritic_rating ∧
    (mergeUpdate (setActive wRow2) wCand).average_playtime = wRow2.average_playtime ∧
    (mergeUpdate (setActive wRow2) wCand).progresses = wRow2.progresses ∧
    (mergeUpdate (setActive wRow2) wCand).publishers = wRow2.publishers ∧
    (mergeUpdate (setActive wRow2) wCand).developers = wRow2.developers ∧
    (mergeUpdate (setActive wRow2) wCand).stores = wRow2.stores ∧
    (mergeUpdate (setActive wRow2) wCand).tags = wRow2.tags ∧
    (mergeUpdate (setActive wRow2) wCand).genres = wRow2.genres ∧
    (mergeUpdate (setActive wRow2) wCand).file_path = wCand.file_path ∧
    (mergeUpdate (setActive wRow2) wCand).title = wCand.title ∧
    (mergeUpdate (setActive wRow2) wCand).release_date = wCand.release_date ∧
    (mergeUpdate (setActive wRow2) wCand).size = wCand.size ∧
    (mergeUpdate (setActive wRow2) wCand).version = wCand.version ∧
    (mergeUpdate (setActive wRow2) wCand).early_access = wCand.early_access ∧
    (mergeUpdate (setActive wRow2) wCand).deleted = false ∧
    (saveUpdated (restoreGame wStore wRow2.id) (mergeUpdate (setActive wRow2) wCand)).length
      = wStore.length :=
  (c8_update_frame wStore wCand wRow2 (by decide)).1 (by decide)

/-! ## Claim C7 -/

theorem afterLastSlash_of_noSlash (t : Str) (ht : ∀ c ∈ t, (c == '/') = false) :
    afterLastSlash t = none := by
  induction t with
  | nil => rfl
  | cons c rest ih =>
    rw [afterLastSlash]
    rw [ht c (List.mem_cons_self c rest)]
    simp only [Bool.false_eq_true, if_false]
    exact ih fun x hx => ht x (List.mem_cons_of_mem c hx)

theorem afterLastSlash_append (q t : Str) (ht : ∀ c ∈ t, (c == '/') = false) :
    afterLastSlash (q ++ t) = (afterLastSlash q).map (fun r => r ++ t) := by
  induction q with
  | nil =>
    rw [List.nil_append, afterLastSlash_of_noSlash t ht]
    rfl
  | cons c q' ih =>
    rw [List.cons_append, afterLastSlash, afterLastSlash]
    rcases hc : (c == '/') with _ | _
    · simp only [Bool.false_eq_true, if_false]
      exact ih
    · simp only [if_true]
      rw [ih]
      rcases hq : afterLastSlash q' with _ | r
      · rfl
      · rfl

theorem basenameOf_append (p t : Str) (ht : ∀ c ∈ t, (c == '/') = false) :
    basenameOf (p ++ t) = basenameOf p ++ t := by
  rw [basenameOf, basenameOf, afterLastSlash_append p t ht]
  rcases hp : afterLastSlash p with _ | r
  · rfl
  · rfl

theorem stripExtAux_append_of_some (u v pv : Str) (h : stripExtAux v = some pv) :
    stripExtAux (u ++ v) = some (u ++ pv) := by
  induction u with
  | nil =>
    rw [List.nil_append, h]
    rfl
  | cons c u' ih =>
    rw [List.cons_append, stripExtAux, ih]
    rfl

theorem drop_append_length_add (u w : Str) (k : Nat) :
    (u ++ w).drop (u.length + k) = w.drop k := by
  induction u with
  | nil => simp
  | cons c u' ih =>
    rw [List.cons_append, List.length_cons]
    rw [show u'.length + 1 + k = (u'.length + k) + 1 from by omega]
    rw [List.drop_succ_cons]
    exact ih

theorem extname_append_targz (p : Str) :
    extname (p ++ (".tar.gz".toList)) = (".gz".toList) := by
  rw [extname]
  have hb : basenameOf (p ++ (".tar.gz".toList)) = basenameOf p ++ (".tar.gz".toList) :=
    basenameOf_append p _ (by decide)
  rw [hb]
  have hne : ¬ (basenameOf p ++ (".tar.gz".toList) = (".".toList) ++ (".".toList)) := by
    intro h
    have := congrArg List.length h
    simp at this
  rw [if_neg hne]
  have hstrip : stripExtAux (basenameOf p ++ (".tar.gz".toList))
      = some (basenameOf p ++ (".tar".toList)) :=
    stripExtAux_append_of_some (basenameOf p) _ _ (by decide)
  rw [hstrip]
  dsimp only
  have hne2 : ¬ (basenameOf p ++ (".tar".toList) = []) := by
    intro h
    have := congrArg List.length h
    simp at this
  rw [if_neg hne2]
  have hlen : (basenameOf p ++ (".tar".toList)).length = (basenameOf p).length + 4 := by
    simp
  rw [hlen]
  rw [drop_append_length_add]
  rfl

/-- C7 evidence: the lister's filter uses `extname`, which never yields a
multi-part extension, so the `.tar.gz`-family entries of the allow-list
are unreachable — every path ending in `.tar.gz` is excluded even though
the allow-list (and the claim) name it as included, while single-part
archive extensions such as `.tgz` and `.zip` are kept. -/
theorem c7_targz_excluded :
    (∀ p : Str, gamevaultFileKeep (p ++ (".tar.gz".toList)) = false) ∧
      getFiles [ { name := ("game.tar.gz".toList), size := 5 } ] = [] ∧
      getFiles [ { name := ("game.tgz".toList), size := 5 } ]
        = [ { name := ("game.tgz".toList), size := 5 } ] ∧
      getFiles [ { name := ("game.zip".toList), size := 5 } ]
        = [ { name := ("game.zip".toList), size := 5 } ] := by
  refine ⟨?_, by decide, by decide, by decide⟩
  intro p
  rw [gamevaultFileKeep, extname_append_targz]
  decide

/-! ## Claim C9 -/

/-- C9 counterexample: for the path `"(2013).zip"` the title pipeline
yields the empty string, yet the parse succeeds and indexing the file
creates a row with an empty title — the empty result is accepted, never
rejected. -/
theorem c9_counterexample :
    regexExtractTitle ("(2013).zip".toList) = [] ∧
      parseGame ("(2013).zip".toList) 5 = Except.ok
        { file_path := ("(2013).zip".toList)
          title := []
          size := 5
          release_date := { year := 2013, month := 1, day := 1 }
          version := none
          early_access := false } ∧
      (indexFiles [ { name := ("(2013).zip".toList), size := 5 } ] []).1
        = [ mkRec 1
            { file_path := ("(2013).zip".toList)
              title := []
              size := 5
              release_date := { year := 2013, month := 1, day := 1 }
              version := none
              early_access := false } ] := by
  refine ⟨by decide, by decide, by decide⟩

/-- C9 (amended): the title produced by the parser can be empty — it is
empty exactly when every character surviving the directory, extension
and parenthesized-group removals is whitespace — and an empty title is
accepted: whether the parse succeeds depends only on the release year,
never on the title. -/
theorem c9_amended_empty_title (s : Str) (n : Nat) :
    (regexExtractTitle s = [] ↔
      ∀ c ∈ removeParens (removeExt (removeDir s)), isJsSpace c = true) ∧
      ∀ y, regexExtractReleaseYear s = some y →
        parseGame s n = Except.ok
          { file_path := s
            title := regexExtractTitle s
            size := n
            release_date := yearToDate y
            version := regexExtractVersion s
            early_access := regexExtractEarlyAccessFlag s } := by
  constructor
  · rw [regexExtractTitle]
    exact jsTrim_eq_nil_iff _
  · intro y h
    exact parseGame_ok_of_some s n y h

theorem c9_witness :
    regexExtractTitle ("(2013).zip".toList) = [] ∧
      parseGame ("(2013).zip".toList) 5 = Except.ok
        { file_path := ("(2013).zip".toList)
          title := regexExtractTitle ("(2013).zip".toList)
          size := 5
          release_date := yearToDate ("2013".toList)
          version := regexExtractVersion ("(2013).zip".toList)
          early_access := regexExtractEarlyAccessFlag ("(2013).zip".toList) } :=
  ⟨(c9_amended_empty_title ("(2013).zip".toList) 5).1.mpr (by decide),
    (c9_amended_empty_title ("(2013).zip".toList) 5).2 ("2013".toList) (by decide)⟩

/-! ## Claim C6 -/

/-- A parenthesized group of exactly four digits starts at position `i`
of the string. -/
def yearGroupAtPos (s : Str) (i : Nat) : Prop :=
  ∃ a b c d r, s.drop i = '(' :: a :: b :: c :: d :: ')' :: r ∧
    a.isDigit = true ∧ b.isDigit = true ∧ c.isDigit = true ∧ d.isDigit = true

/-- A `(v<text>)` group with non-empty `<text>` free of `')'` starts at
position `i` of the string. -/
def versionGroupAtPos (s : Str) (i : Nat) : Prop :=
  ∃ b r, s.drop i = '(' :: 'v' :: (b ++ ')' :: r) ∧ ')' ∉ b ∧ b ≠ []

theorem yearStep_drop_some_iff (s : Str) (i : Nat) (y : Str) :
    yearStep (s.drop i) = some y ↔
      yearGroupAtPos s i ∧ y = ((s.drop i).drop 1).take 4 := by
  rw [yearStep_eq_some_iff]
  constructor
  · rintro ⟨a, b, c, d, r, hdrop, ha, hb, hc, hd, hy⟩
    refine ⟨⟨a, b, c, d, r, hdrop, ha, hb, hc, hd⟩, ?_⟩
    rw [hdrop, hy]
    rfl
  · rintro ⟨⟨a, b, c, d, r, hdrop, ha, hb, hc, hd⟩, hy⟩
    refine ⟨a, b, c, d, r, hdrop, ha, hb, hc, hd, ?_⟩
    rw [hy, hdrop]
    rfl

theorem yearStep_drop_none_iff (s : Str) (i : Nat) :
    yearStep (s.drop i) = none ↔ ¬ yearGroupAtPos s i := by
  constructor
  · intro h hgroup
    obtain ⟨a, b, c, d, r, hdrop, ha, hb, hc, hd⟩ := hgroup
    have hsome : yearStep (s.drop i) = some [a, b, c, d] :=
      (yearStep_eq_some_iff _ _).mpr ⟨a, b, c, d, r, hdrop, ha, hb, hc, hd, rfl⟩
    rw [h] at hsome
    exact absurd hsome (by simp)
  · intro h
    rcases hy : yearStep (s.drop i) with _ | y
    · rfl
    · obtain ⟨a, b, c, d, r, hdrop, ha, hb, hc, hd, _⟩ :=
        (yearStep_eq_some_iff _ _).mp hy
      exact absurd ⟨a, b, c, d, r, hdrop, ha, hb, hc, hd⟩ h

theorem versionStep_drop_none_iff (s : Str) (i : Nat) :
    versionStep (s.drop i) = none ↔ ¬ versionGroupAtPos s i := by
  constructor
  · intro h hgroup
    obtain ⟨b, r, hdrop, hnb, hbne⟩ := hgroup
    have hsome : versionStep (s.drop i) = some ('v' :: b) :=
      (versionStep_eq_some_iff _ _).mpr ⟨b, r, hdrop, hnb, hbne, rfl⟩
    rw [h] at hsome
    exact absurd hsome (by simp)
  · intro h
    rcases hv : versionStep (s.drop i) with _ | v
    · rfl
    · obtain ⟨b, r, hdrop, hnb, hbne, _⟩ := (versionStep_eq_some_iff _ _).mp hv
      exact absurd ⟨b, r, hdrop, hnb, hbne⟩ h

/-- C6 counterexample: the claim's general description of the title as
"the last path segment with extension, groups and whitespace removed"
fails on a path with a line terminator in its directory part — the `.`
of the directory regex `/^.*[\\/]/` does not cross line terminators, so
the directory prefix is not stripped there. -/
theorem c6_counterexample :
    regexExtractTitle ("a\nb/Portal (2013).zip".toList) = ("a\nb/Portal".toList) ∧
      specTitle ("a\nb/Portal (2013).zip".toList) = ("Portal".toList) ∧
      ¬ regexExtractTitle ("a\nb/Portal (2013).zip".toList)
          = specTitle ("a\nb/Portal (2013).zip".toList) := by
  refine ⟨by decide, by decide, by decide⟩

/-- C6 (amended): `parse` of the GTA example yields exactly the claimed
fields (title `"Grand Theft Auto V"`, release date 2013-01-01, version
`"v1.0.0"`, early access true); the title equals the last path segment
with extension, parenthesized groups and surrounding whitespace removed
on every path free of line terminators (with a line terminator before
the last separator the directory prefix is kept); the release year is
the capture of the first parenthesized group of exactly four digits; the
version is the capture of the first `(v<text>)` group whose `<text>` is
non-empty and free of `')'`; and early access holds iff the literal
`(EA)` occurs in the path. -/
theorem c6_parse_characterisation :
    parseGame ("Grand Theft Auto V (2013) (v1.0.0) (EA).zip".toList) 42 = Except.ok
      { file_path := ("Grand Theft Auto V (2013) (v1.0.0) (EA).zip".toList)
        title := ("Grand Theft Auto V".toList)
        size := 42
        release_date := { year := 2013, month := 1, day := 1 }
        version := some ("v1.0.0".toList)
        early_access := true } ∧
    (∀ s : Str, (∀ c ∈ s, isLineTerm c = false) →
      regexExtractTitle s = specTitle s) ∧
    (∀ (s : Str) (y : Str), regexExtractReleaseYear s = some y ↔
      ∃ i, i < s.length ∧ yearGroupAtPos s i ∧ (∀ j < i, ¬ yearGroupAtPos s j) ∧
        y = ((s.drop i).drop 1).take 4) ∧
    (∀ (s : Str) (v : Str), regexExtractVersion s = some v ↔
      ∃ i, i < s.length ∧
        (∃ b r, s.drop i = '(' :: 'v' :: (b ++ ')' :: r) ∧ ')' ∉ b ∧ b ≠ [] ∧
          v = 'v' :: b) ∧
        ∀ j < i, ¬ versionGroupAtPos s j) ∧
    (∀ s : Str, regexExtractEarlyAccessFlag s = true ↔
      ∃ l r, s = l ++ '(' :: 'E' :: 'A' :: ')' :: r) := by
  refine ⟨by decide, regexExtractTitle_eq_specTitle, ?_, ?_, regexExtractEarlyAccessFlag_iff⟩
  · intro s y
    rw [regexExtractReleaseYear, scanFirst_eq_some_iff]
    constructor
    · rintro ⟨i, hi, hstep, hbefore⟩
      obtain ⟨hgroup, hcap⟩ := (yearStep_drop_some_iff s i y).mp hstep
      refine ⟨i, hi, hgroup, ?_, hcap⟩
      intro j hj
      exact (yearStep_drop_none_iff s j).mp (hbefore j hj)
    · rintro ⟨i, hi, hgroup, hbefore, hcap⟩
      refine ⟨i, hi, (yearStep_drop_some_iff s i y).mpr ⟨hgroup, hcap⟩, ?_⟩
      intro j hj
      exact (yearStep_drop_none_iff s j).mpr (hbefore j hj)
  · intro s v
    rw [regexExtractVersion, scanFirst_eq_some_iff]
    constructor
    · rintro ⟨i, hi, hstep, hbefore⟩
      obtain ⟨b, r, hdrop, hnb, hbne, hv⟩ := (versionStep_eq_some_iff _ _).mp hstep
      refine ⟨i, hi, ⟨b, r, hdrop, hnb, hbne, hv⟩, ?_⟩
      intro j hj
      exact (versionStep_drop_none_iff s j).mp (hbefore j hj)
    · rintro ⟨i, hi, ⟨b, r, hdrop, hnb, hbne, hv⟩, hbefore⟩
      refine ⟨i, hi, (versionStep_eq_some_iff _ _).mpr ⟨b, r, hdrop, hnb, hbne, hv⟩, ?_⟩
      intro j hj
      exact (versionStep_drop_none_iff s j).mpr (hbefore j hj)

theorem c6_witness :
    regexExtractTitle ("games/Portal (2007).zip".toList)
        = specTitle ("games/Portal (2007).zip".toList) ∧
      regexExtractEarlyAccessFlag ("X (EA).zip".toList) = true :=
  ⟨c6_parse_characterisation.2.1 ("games/Portal (2007).zip".toList) (by decide),
    (c6_parse_characterisation.2.2.2.2 ("X (EA).zip".toList)).mpr
      ⟨("X ".toList), (".zip".toList), by decide⟩⟩

/-! ## Claim C10 -/

/-- C10: the version and release-year extractors scan the entire
relative path, directory segments included, while the title is derived
from the last path segment only: a four-digit group or `(v...)` group in
the directory prefix supplies the release year or version even when the
filename segment contains none, and such a file parses successfully
instead of failing for a missing year.  (The directory prefix must be
free of line terminators, which the title regex cannot cross, and the
filename segment free of separators, as a path's last segment is.) -/
theorem c10_extractors_scan_whole_path (d b : Str)
    (hd : ∀ c ∈ d, isLineTerm c = false)
    (hb : ∀ c ∈ b, isSep c = false) :
    regexExtractTitle (d ++ '/' :: b) = regexExtractTitle b ∧
      (∀ y, regexExtractReleaseYear d = some y →
        regexExtractReleaseYear (d ++ '/' :: b) = some y) ∧
      (∀ v, regexExtractVersion d = some v →
        regexExtractVersion (d ++ '/' :: b) = some v) ∧
      (∀ y n, regexExtractReleaseYear d = some y →
        parseGame (d ++ '/' :: b) n = Except.ok
          { file_path := d ++ '/' :: b
            title := regexExtractTitle b
            size := n
            release_date := yearToDate y
            version := regexExtractVersion (d ++ '/' :: b)
            early_access := regexExtractEarlyAccessFlag (d ++ '/' :: b) }) := by
  have htitle := regexExtractTitle_dir_slash d b hd hb
  refine ⟨htitle, ?_, ?_, ?_⟩
  · intro y hy
    rw [regexExtractReleaseYear] at hy ⊢
    exact scanYear_append d ('/' :: b) y hy
  · intro v hv
    rw [regexExtractVersion] at hv ⊢
    exact scanVersion_append d ('/' :: b) v hv
  · intro y n hy
    have hy' : regexExtractReleaseYear (d ++ '/' :: b) = some y := by
      rw [regexExtractReleaseYear] at hy ⊢
      exact scanYear_append d ('/' :: b) y hy
    rw [parseGame_ok_of_some _ n y hy']
    rw [htitle]

theorem c10_witness :
    regexExtractTitle (("Portal (2007) (v1.2)".toList) ++ '/' :: ("Portal.zip".toList))
        = regexExtractTitle ("Portal.zip".toList) ∧
      regexExtractReleaseYear (("Portal (2007) (v1.2)".toList) ++ '/' :: ("Portal.zip".toList))
        = some ("2007".toList) ∧
      regexExtractVersion (("Portal (2007) (v1.2)".toList) ++ '/' :: ("Portal.zip".toList))
        = some ("v1.2".toList) :=
  have h := c10_extractors_scan_whole_path ("Portal (2007) (v1.2)".toList)
    ("Portal.zip".toList) (by decide) (by decide)
  ⟨h.1, h.2.1 ("2007".toList) (by decide), h.2.2.1 ("v1.2".toList) (by decide)⟩

end GameVault
